import Mathlib

/-!
Verification of `kconfig_symbol_prefix_adder.py` (class `KConfigRenamer`).

The script rewrites Kconfig symbol names with Python `re.sub` passes.  This
file embeds the string-rewriting core at the character level: file contents
are `List Char`, and every regex substitution of the source is translated
into an explicit scanner with the exact semantics of the Python pattern
(leftmost match, resume after the matched span, greedy/lazy quantifier
behaviour resolved as the backtracking engine resolves it, `re.MULTILINE`
anchors via the preceding character, `re.IGNORECASE` via ASCII case
folding).  The embedding was cross-checked against CPython `re` on a battery
of inputs.

Conventions:
* `prev : Option Char` is the character immediately before the current
  scanning position (`none` at the start of the string); it decides both the
  `^` anchor (`MULTILINE`: start of string or after a newline) and `\b`.
* All texts handled by the tool are ASCII, so `\w` is embedded as
  ASCII alphanumeric or underscore and case folding as ASCII `toLower`.
* A matcher returns `some (replacement, consumedLength)`; the driver
  `runSubF` emits the replacement and resumes after the consumed span,
  exactly like `re.sub`.
-/

namespace Kc

/-- Python `\s` (ASCII range): space, tab, newline, carriage return,
vertical tab, form feed. -/
def isPySpace (c : Char) : Bool :=
  c = ' ' || c = '\t' || c = '\n' || c = '\r' || c = Char.ofNat 11 || c = Char.ofNat 12

/-- Python `\w` on ASCII text: letters, digits, underscore. -/
def isWordChar (c : Char) : Bool :=
  c.isAlphanum || c = '_'

/-- Wordness of an optional character; `none` (string edge) is non-word,
matching Python `\b` at the ends of the string. -/
def optWord : Option Char → Bool
  | none => false
  | some c => isWordChar c

/-- Python `\b` between the two given characters: exactly one side is a
word character. -/
def wordB (a b : Option Char) : Bool :=
  optWord a != optWord b

/-- ASCII-case-insensitive character comparison (`re.IGNORECASE`). -/
def lowEq (a b : Char) : Bool :=
  a.toLower = b.toLower

/-- `MULTILINE` `^`: at the start of the string or right after a newline. -/
def atLS : Option Char → Bool
  | none => true
  | some c => c = '\n'

/-- Case-insensitive literal match of `pat` at the head of `s`; returns the
matched original characters and the rest. -/
def stripCI : List Char → List Char → Option (List Char × List Char)
  | [], s => some ([], s)
  | _ :: _, [] => none
  | p :: ps, c :: cs =>
    if lowEq c p then
      match stripCI ps cs with
      | some (m, r) => some (c :: m, r)
      | none => none
    else none

/-- Case-sensitive literal match of `pat` at the head of `s`; returns the
rest on success. -/
def stripExact : List Char → List Char → Option (List Char)
  | [], s => some s
  | _ :: _, [] => none
  | p :: ps, c :: cs => if c = p then stripExact ps cs else none

/-- First alternative of a literal alternation that matches, with the rest
(the source patterns list `config` before `menuconfig`). -/
def stripAnyKw : List (List Char) → List Char → Option (List Char × List Char)
  | [], _ => none
  | k :: ks, s =>
    match stripExact k s with
    | some r => some (k, r)
    | none => stripAnyKw ks s

/-- Split a character list before its last newline: `splitLastNL w = some
(a, b)` with `w = a ++ b` and `b` starting with the last `'\n'` of `w`. -/
def splitLastNL : List Char → Option (List Char × List Char)
  | [] => none
  | c :: cs =>
    match splitLastNL cs with
    | some (a, b) => some (c :: a, b)
    | none => if c = '\n' then some ([], c :: cs) else none

/-- The tail `(\s*)$` of the anchored patterns, with the greedy `\s*`
resolved as Python resolves it: let `w` be the maximal whitespace run of
`s`; if it reaches the end of the string the group is all of `w`, otherwise
the group is `w` up to (excluding) its last newline, and the match fails if
`w` has no newline.  Returns `(capturedGroup, remainingText)`. -/
def wsDollar (s : List Char) : Option (List Char × List Char) :=
  let w := s.takeWhile isPySpace
  let t := s.dropWhile isPySpace
  if t.isEmpty then some (w, [])
  else
    match splitLastNL w with
    | some (a, b) => some (a, b ++ t)
    | none => none

/-- Keyword literals of the source patterns. -/
def kwConfig : List Char := "config".toList

def kwMenuconfig : List Char := "menuconfig".toList

def kwIf : List Char := "if".toList

def kwEndif : List Char := "endif".toList

def kwSelect : List Char := "select".toList

def kwDefault : List Char := "default".toList

def kwChoice : List Char := "choice".toList

def kwImply : List Char := "imply".toList

def kwRange : List Char := "range".toList

def kwDepends : List Char := "depends".toList

def kwOn : List Char := "on".toList

def kwVisible : List Char := "visible".toList

/-- Case-insensitive whole-word match of `old` at the head of `s` in context
`prev`: `s` starts with a case variant of `old` and Python `\b` holds on
both sides (the wordness of the matched characters equals the wordness of
the characters of `old`, so the test uses `old` itself). -/
def checkWordCI (old : List Char) (prev : Option Char) (s : List Char) : Bool :=
  match stripCI old s with
  | none => false
  | some (_, r) => wordB prev old.head? && wordB old.getLast? r.head?

/-- Case-sensitive whole-word match of `old` at the head of `s` (the inner
`re.sub(r"\b" + old + r"\b", new, span)` of rule 6 is compiled without
`IGNORECASE`). -/
def checkWordExact (old : List Char) (prev : Option Char) (s : List Char) : Bool :=
  match stripExact old s with
  | none => false
  | some r => wordB prev old.head? && wordB old.getLast? r.head?

/-- Greedy search of `([^#\n]*\b)OLD(\b)` (ignoring case): position of the
LAST case-insensitive whole-word occurrence of `old` in `s` whose preceding
characters within `s` are all distinct from `#` and newline (the greedy
`[^#\n]*` group makes the regex engine pick the rightmost occurrence).
`p` is the character before `s`. -/
def lastHit (old : List Char) (p : Char) : List Char → Option Nat
  | [] => none
  | c :: cs =>
    match (if c = '#' ∨ c = '\n' then none else lastHit old c cs) with
    | some j => some (j + 1)
    | none => if checkWordCI old (some p) (c :: cs) then some 0 else none

/-- Generic `re.sub` driver with fuel (one unit per emitted step; the fuel
`length + 1` used by `applySub` never runs out).  On a match the matcher's
replacement is emitted and scanning resumes after the consumed span, with
`prev` set to the last consumed original character; otherwise one character
is copied.  A matcher returning a consumed length of `0` is treated as no
match (no source pattern matches the empty string). -/
def runSubF (t : Option Char → List Char → Option (List Char × Nat)) :
    Nat → Option Char → List Char → List Char
  | 0, _, s => s
  | _ + 1, _, [] => []
  | fuel + 1, prev, c :: cs =>
    match t prev (c :: cs) with
    | some (rep, n + 1) => rep ++ runSubF t fuel ((c :: cs).get? n) (cs.drop n)
    | _ => c :: runSubF t fuel (some c) cs

/-- Run a substitution over a whole content (fuel `length + 1` suffices
because every step consumes at least one character). -/
def applySub (t : Option Char → List Char → Option (List Char × Nat))
    (c : List Char) : List Char :=
  runSubF t (c.length + 1) none c

/-- Matcher for the anchored single-keyword rules
`^(\s*KW\s+)OLD(\s*)$` (`re.MULTILINE`), used by source rules 1 (`config`,
`menuconfig`), 2 (`if`), 5 (`select`), 7 (`default`), 8 first form
(`choice`), and 9 (`imply`).  `\s` may span newlines, exactly as in the
source. -/
def tryKwLine (kws : List (List Char)) (old new : List Char)
    (prev : Option Char) (s : List Char) : Option (List Char × Nat) :=
  if atLS prev then
    match stripAnyKw kws (s.dropWhile isPySpace) with
    | none => none
    | some (kw, r1) =>
      let w1 := r1.takeWhile isPySpace
      if w1.isEmpty then none
      else
        match stripExact old (r1.dropWhile isPySpace) with
        | none => none
        | some r3 =>
          match wsDollar r3 with
          | none => none
          | some (g2, _) =>
            let w0 := s.takeWhile isPySpace
            some (w0 ++ kw ++ w1 ++ new ++ g2,
              w0.length + kw.length + w1.length + old.length + g2.length)
  else none

/-- Matcher for source rule 3: `^(\s*endif\s*#\s*)OLD(\s*)$`
(`re.MULTILINE`). -/
def try3 (old new : List Char) (prev : Option Char) (s : List Char) :
    Option (List Char × Nat) :=
  if atLS prev then
    match stripExact kwEndif (s.dropWhile isPySpace) with
    | none => none
    | some r1 =>
      match r1.dropWhile isPySpace with
      | '#' :: r2 =>
        let w2 := r2.takeWhile isPySpace
        match stripExact old (r2.dropWhile isPySpace) with
        | none => none
        | some r3 =>
          match wsDollar r3 with
          | none => none
          | some (g2, _) =>
            let w0 := s.takeWhile isPySpace
            let w1 := r1.takeWhile isPySpace
            some (w0 ++ kwEndif ++ w1 ++ ['#'] ++ w2 ++ new ++ g2,
              w0.length + kwEndif.length + w1.length + 1 + w2.length +
                old.length + g2.length)
      | _ => none
  else none

/-- Matcher for source rule 4:
`(\bdepends\s+on\s+[^#\n]*\b)OLD(\b)` with `re.IGNORECASE`.  The greedy
`[^#\n]*` makes the engine replace the rightmost eligible occurrence after
`depends on` (the whitespace after `on` may span newlines). -/
def try4 (old new : List Char) (prev : Option Char) (s : List Char) :
    Option (List Char × Nat) :=
  match stripCI kwDepends s with
  | none => none
  | some (kd, r1) =>
    if wordB prev kd.head? then
      let w1 := r1.takeWhile isPySpace
      if w1.isEmpty then none
      else
        match stripCI kwOn (r1.dropWhile isPySpace) with
        | none => none
        | some (ko, r2) =>
          let w2 := r2.takeWhile isPySpace
          if w2.isEmpty then none
          else
            let t := r2.dropWhile isPySpace
            match lastHit old (w2.getLastD ' ') t with
            | none => none
            | some k =>
              some (kd ++ w1 ++ ko ++ w2 ++ t.take k ++ new,
                kd.length + w1.length + ko.length + w2.length + k + old.length)
    else none

/-- Matcher of the inner substitution of source rule 6:
`re.sub(r"\b" + OLD + r"\b", NEW, span)` — case-sensitive whole-word
replacement inside the captured span. -/
def tryInner (old new : List Char) (prev : Option Char) (s : List Char) :
    Option (List Char × Nat) :=
  if old.isEmpty then none
  else if checkWordExact old prev s then some (new, old.length) else none

/-- The inner substitution of source rule 6 applied to a captured span (the
span is scanned as its own string, so its first position counts as a string
edge for `\b` — faithfully reproducing the source's behaviour). -/
def innerSubW (old new span : List Char) : List Char :=
  runSubF (tryInner old new) (span.length + 1) none span

/-- Matcher for source rule 6, the "multiline depends on" rule:
`depends\s+on\s+[^#]*?(?=\n\s*(?:config|menuconfig|choice|endchoice|if|endif|help|---help---|default|select|range|imply|visible|\S|$))`
with `re.MULTILINE | re.DOTALL | re.IGNORECASE`.

The lookahead succeeds at every newline (its `\S` and `$` alternatives
together cover every possible continuation), so the lazy `[^#]*?` stops at
the first newline after `depends on`; if a `#` blocks the way the engine
backtracks the greedy `\s+` after `on` to the last newline inside that
whitespace run (and fails if there is none at index ≥ 1).  The whole match
is passed to the inner whole-word substitution. -/
def try6 (old new : List Char) (_prev : Option Char) (s : List Char) :
    Option (List Char × Nat) :=
  match stripCI kwDepends s with
  | none => none
  | some (kd, r1) =>
    let w1 := r1.takeWhile isPySpace
    if w1.isEmpty then none
    else
      match stripCI kwOn (r1.dropWhile isPySpace) with
      | none => none
      | some (ko, r2) =>
        let w := r2.takeWhile isPySpace
        if w.isEmpty then none
        else
          let t := r2.dropWhile isPySpace
          let q := t.takeWhile (fun c => c ≠ '\n')
          if q.length < t.length ∧ q.all (fun c => c ≠ '#') then
            some (innerSubW old new (kd ++ w1 ++ ko ++ w ++ q),
              kd.length + w1.length + ko.length + w.length + q.length)
          else
            match splitLastNL w with
            | some (a, _) =>
              if a.isEmpty then none
              else
                some (innerSubW old new (kd ++ w1 ++ ko ++ a),
                  kd.length + w1.length + ko.length + a.length)
            | none => none

/-- Matcher for source rule 8, second form:
`^(\s*choice\s+)OLD(\b.*?)$` (`re.MULTILINE`): the lazy `.*?` captures the
rest of the line. -/
def try8b (old new : List Char) (prev : Option Char) (s : List Char) :
    Option (List Char × Nat) :=
  if atLS prev then
    match stripExact kwChoice (s.dropWhile isPySpace) with
    | none => none
    | some r1 =>
      let w1 := r1.takeWhile isPySpace
      if w1.isEmpty then none
      else
        match stripExact old (r1.dropWhile isPySpace) with
        | none => none
        | some r3 =>
          if wordB old.getLast? r3.head? then
            let g2 := r3.takeWhile (fun c => c ≠ '\n')
            let w0 := s.takeWhile isPySpace
            some (w0 ++ kwChoice ++ w1 ++ new ++ g2,
              w0.length + kwChoice.length + w1.length + old.length + g2.length)
          else none
  else none

/-- Matcher for source rule 10: `(\bif\s+)OLD(\b)` with `re.IGNORECASE`
(both the keyword and the symbol match case-insensitively; the whitespace
may span newlines). -/
def try10 (old new : List Char) (prev : Option Char) (s : List Char) :
    Option (List Char × Nat) :=
  match stripCI kwIf s with
  | none => none
  | some (ki, r1) =>
    if wordB prev ki.head? then
      let w1 := r1.takeWhile isPySpace
      if w1.isEmpty then none
      else
        match stripCI old (r1.dropWhile isPySpace) with
        | none => none
        | some (_, r2) =>
          if wordB old.getLast? r2.head? then
            some (ki ++ w1 ++ new, ki.length + w1.length + old.length)
          else none
    else none

/-- Matcher for source rule 11, first form:
`^(\s*range\s+[^\s]+\s+)OLD(\s*)$` (`re.MULTILINE`). -/
def try11a (old new : List Char) (prev : Option Char) (s : List Char) :
    Option (List Char × Nat) :=
  if atLS prev then
    match stripExact kwRange (s.dropWhile isPySpace) with
    | none => none
    | some r1 =>
      let w1 := r1.takeWhile isPySpace
      if w1.isEmpty then none
      else
        let r2 := r1.dropWhile isPySpace
        let tok := r2.takeWhile (fun c => !isPySpace c)
        if tok.isEmpty then none
        else
          let r3 := r2.dropWhile (fun c => !isPySpace c)
          let w2 := r3.takeWhile isPySpace
          if w2.isEmpty then none
          else
            match stripExact old (r3.dropWhile isPySpace) with
            | none => none
            | some r4 =>
              match wsDollar r4 with
              | none => none
              | some (g2, _) =>
                let w0 := s.takeWhile isPySpace
                some (w0 ++ kwRange ++ w1 ++ tok ++ w2 ++ new ++ g2,
                  w0.length + kwRange.length + w1.length + tok.length +
                    w2.length + old.length + g2.length)
  else none

/-- Matcher for source rule 11, second form:
`^(\s*range\s+)OLD(\s+[^\s]+\s*)$` (`re.MULTILINE`). -/
def try11b (old new : List Char) (prev : Option Char) (s : List Char) :
    Option (List Char × Nat) :=
  if atLS prev then
    match stripExact kwRange (s.dropWhile isPySpace) with
    | none => none
    | some r1 =>
      let w1 := r1.takeWhile isPySpace
      if w1.isEmpty then none
      else
        match stripExact old (r1.dropWhile isPySpace) with
        | none => none
        | some r2 =>
          let w2 := r2.takeWhile isPySpace
          if w2.isEmpty then none
          else
            let r3 := r2.dropWhile isPySpace
            let tok := r3.takeWhile (fun c => !isPySpace c)
            if tok.isEmpty then none
            else
              match wsDollar (r3.dropWhile (fun c => !isPySpace c)) with
              | none => none
              | some (g2, _) =>
                let w0 := s.takeWhile isPySpace
                some (w0 ++ kwRange ++ w1 ++ new ++ w2 ++ tok ++ g2,
                  w0.length + kwRange.length + w1.length + old.length +
                    w2.length + tok.length + g2.length)
  else none

/-- Matcher for source rule 12:
`(\bvisible\s+if\s+[^#\n]*\b)OLD(\b)` with `re.IGNORECASE`; like rule 4, the
greedy group selects the rightmost eligible occurrence. -/
def try12 (old new : List Char) (prev : Option Char) (s : List Char) :
    Option (List Char × Nat) :=
  match stripCI kwVisible s with
  | none => none
  | some (kv, r1) =>
    if wordB prev kv.head? then
      let w1 := r1.takeWhile isPySpace
      if w1.isEmpty then none
      else
        match stripCI kwIf (r1.dropWhile isPySpace) with
        | none => none
        | some (ki, r2) =>
          let w2 := r2.takeWhile isPySpace
          if w2.isEmpty then none
          else
            let t := r2.dropWhile isPySpace
            match lastHit old (w2.getLastD ' ') t with
            | none => none
            | some k =>
              some (kv ++ w1 ++ ki ++ w2 ++ t.take k ++ new,
                kv.length + w1.length + ki.length + w2.length + k + old.length)
    else none

/-- Source rule 1: replace `config`/`menuconfig` definitions. -/
def sub1 (old new c : List Char) : List Char :=
  applySub (tryKwLine [kwConfig, kwMenuconfig] old new) c

/-- Source rule 2: replace anchored `if SYMBOL` lines. -/
def sub2 (old new c : List Char) : List Char :=
  applySub (tryKwLine [kwIf] old new) c

/-- Source rule 3: replace `endif # SYMBOL` comments. -/
def sub3 (old new c : List Char) : List Char :=
  applySub (try3 old new) c

/-- Source rule 4: replace in single-line `depends on` statements. -/
def sub4 (old new c : List Char) : List Char :=
  applySub (try4 old new) c

/-- Source rule 5: replace anchored `select SYMBOL` lines. -/
def sub5 (old new c : List Char) : List Char :=
  applySub (tryKwLine [kwSelect] old new) c

/-- Source rule 6: the "multiline depends on" substitution. -/
def sub6 (old new c : List Char) : List Char :=
  applySub (try6 old new) c

/-- Source rule 7: replace anchored `default SYMBOL` lines. -/
def sub7 (old new c : List Char) : List Char :=
  applySub (tryKwLine [kwDefault] old new) c

/-- Source rule 8, first form: anchored `choice SYMBOL` lines. -/
def sub8a (old new c : List Char) : List Char :=
  applySub (tryKwLine [kwChoice] old new) c

/-- Source rule 8, second form: `choice SYMBOL <trailing>` lines. -/
def sub8b (old new c : List Char) : List Char :=
  applySub (try8b old new) c

/-- Source rule 9: replace anchored `imply SYMBOL` lines. -/
def sub9 (old new c : List Char) : List Char :=
  applySub (tryKwLine [kwImply] old new) c

/-- Source rule 10: replace `if SYMBOL` sub-expressions anywhere. -/
def sub10 (old new c : List Char) : List Char :=
  applySub (try10 old new) c

/-- Source rule 11, first form: `range <low> SYMBOL` lines. -/
def sub11a (old new c : List Char) : List Char :=
  applySub (try11a old new) c

/-- Source rule 11, second form: `range SYMBOL <high>` lines. -/
def sub11b (old new c : List Char) : List Char :=
  applySub (try11b old new) c

/-- Source rule 12: replace in `visible if` statements. -/
def sub12 (old new c : List Char) : List Char :=
  applySub (try12 old new) c

/-- One iteration of the mapping loop of `rename_in_kconfig_file`
(source lines 111–229): the twelve rules applied in source order to the
whole content for one `(old_symbol, new_symbol)` pair. -/
def applyMapping (old new c : List Char) : List Char :=
  sub12 old new (sub11b old new (sub11a old new (sub10 old new (sub9 old new
    (sub8b old new (sub8a old new (sub7 old new (sub6 old new (sub5 old new
      (sub4 old new (sub3 old new (sub2 old new (sub1 old new c)))))))))))))

/-- The full rewriting pass of `rename_in_kconfig_file` over one file
content: the mapping loop `for old_symbol, new_symbol in mappings.items()`
(mappings modelled as an association list in iteration order). -/
def renameContent (ms : List (List Char × List Char)) (c : List Char) :
    List Char :=
  ms.foldl (fun acc p => applyMapping p.1 p.2 acc) c

/-- The identifier alphabet `[A-Z0-9_]` of the discovery patterns. -/
def isSymTail (c : Char) : Bool :=
  ('A' ≤ c && c ≤ 'Z') || c.isDigit || c = '_'

/-- Matcher for the discovery patterns of `find_all_subsymbols`
(source lines 67–77):
`^\s*(config|menuconfig)\s+(SYMBOL[A-Z0-9_]*)\s*$` and
`^\s*choice\s+(SYMBOL[A-Z0-9_]*)\s*$`, both `re.MULTILINE`.  Returns the
captured symbol group and the consumed length. -/
def tryDefn (kws : List (List Char)) (symbol : List Char)
    (prev : Option Char) (s : List Char) : Option (List Char × Nat) :=
  if atLS prev then
    match stripAnyKw kws (s.dropWhile isPySpace) with
    | none => none
    | some (kw, r1) =>
      let w1 := r1.takeWhile isPySpace
      if w1.isEmpty then none
      else
        match stripExact symbol (r1.dropWhile isPySpace) with
        | none => none
        | some r2 =>
          let ext := r2.takeWhile isSymTail
          match wsDollar (r2.dropWhile isSymTail) with
          | none => none
          | some (g2, _) =>
            let w0 := s.takeWhile isPySpace
            some (symbol ++ ext,
              w0.length + kw.length + w1.length + symbol.length + ext.length +
                g2.length)
  else none

/-- `re.findall` driver with fuel: collect the capture of every
non-overlapping match, scanning left to right. -/
def runFindF (t : Option Char → List Char → Option (List Char × Nat)) :
    Nat → Option Char → List Char → List (List Char)
  | 0, _, _ => []
  | _ + 1, _, [] => []
  | fuel + 1, prev, c :: cs =>
    match t prev (c :: cs) with
    | some (cap, n + 1) => cap :: runFindF t fuel ((c :: cs).get? n) (cs.drop n)
    | _ => runFindF t fuel (some c) cs

/-- Run a findall pass over a whole content. -/
def runFind (t : Option Char → List Char → Option (List Char × Nat))
    (c : List Char) : List (List Char) :=
  runFindF t (c.length + 1) none c

/-- `find_all_subsymbols` (source lines 56–94) restricted to one file
content: the `config|menuconfig` findall pass, then the `choice` findall
pass, collected into a set (modelled as a duplicate-free list in discovery
order; the source's Python `set` has no specified order, and no claim here
depends on the order). -/
def find_all_subsymbols (symbol content : List Char) : List (List Char) :=
  (runFind (tryDefn [kwConfig, kwMenuconfig] symbol) content ++
    runFind (tryDefn [kwChoice] symbol) content).dedup

/-- Insertion into a Python-dict-like association list: update in place if
the key exists, else append (dict insertion order). -/
def insertA (m : List (List Char × List Char)) (k v : List Char) :
    List (List Char × List Char) :=
  match m with
  | [] => [(k, v)]
  | (a, b) :: t => if a = k then (a, v) :: t else (a, b) :: insertA t k v

/-- The mapping construction of `rename_symbol` (source lines 402–408):
for every discovered subsymbol starting with the old symbol, map it to
`new_symbol + symbol[len(old_symbol):]`. -/
def buildMappings (old new : List Char) (subs : List (List Char)) :
    List (List Char × List Char) :=
  subs.foldl
    (fun m sym =>
      if old.isPrefixOf sym then insertA m sym (new ++ sym.drop old.length)
      else m)
    []

/-- `rename_symbol` (source lines 394–436) restricted to the
configuration-language rewriting of one file content: discover subsymbols,
build the mappings, and — unless the mapping set is empty, which the source
treats as "nothing to do" — rewrite the content with every mapping. -/
def rename_symbol (old new content : List Char) : List Char :=
  let ms := buildMappings old new (find_all_subsymbols old content)
  if ms.isEmpty then content else renameContent ms content

/-- Result of `rename_in_kconfig_file` on one file: the returned boolean,
the resulting file content, whether the file was written, and whether a
change-log entry was appended to `changes_made`. -/
structure RenResult where
  ret : Bool
  content : List Char
  wrote : Bool
  logged : Bool
  deriving DecidableEq, Repr

/-- `rename_in_kconfig_file` (source lines 96–242) on one file content
(I/O errors are out of the model's scope).  In dry-run mode the function
returns `True` before reading or writing anything; otherwise it rewrites
the content and writes back — appending a change-log entry — only when the
rewritten content differs from the original. -/
def rename_in_kconfig_file (dryRun : Bool) (ms : List (List Char × List Char))
    (content : List Char) : RenResult :=
  if dryRun then ⟨true, content, false, false⟩
  else
    let c2 := renameContent ms content
    if c2 ≠ content then ⟨true, c2, true, true⟩ else ⟨false, content, false, false⟩

/-- `process_kconfig_files_with_python` (source lines 244–261) over the
contents of the Kconfig files: returns the reported count and the resulting
file contents.  In dry-run mode it reports `len(kconfig_files)` and touches
nothing; otherwise it counts the files for which `rename_in_kconfig_file`
returned `True`. -/
def process_kconfig_files_with_python (dryRun : Bool)
    (files : List (List Char)) (ms : List (List Char × List Char)) :
    Nat × List (List Char) :=
  if files.isEmpty then (0, files)
  else if dryRun then (files.length, files)
  else
    let results := files.map (rename_in_kconfig_file false ms)
    ((results.filter (fun r => r.ret)).length, results.map (fun r => r.content))

/-- Python `str.strip()`: remove leading and trailing whitespace. -/
def pyStrip (s : List Char) : List Char :=
  ((s.dropWhile isPySpace).reverse.dropWhile isPySpace).reverse

/-- The literal separator token of the mapping file format. -/
def arrowSep : List Char := " -> ".toList

/-- Python `line.split(" -> ", 1)` preceded by the containment test: split
at the first occurrence of the separator, `none` when there is none. -/
def splitArrow : List Char → Option (List Char × List Char)
  | [] => none
  | c :: cs =>
    if arrowSep.isPrefixOf (c :: cs) then some ([], (c :: cs).drop arrowSep.length)
    else
      match splitArrow cs with
      | some (a, b) => some (c :: a, b)
      | none => none

/-- Outcome of one line of the mapping-file loop. -/
inductive LineResult where
  | skip : LineResult
  | malformed : LineResult
  | mapping : List Char → List Char → LineResult
  deriving DecidableEq, Repr

/-- One iteration of the line loop of `rename_from_mapping_file`
(source lines 447–465): strip the line; skip blank and `#`-comment lines;
report lines without the ` -> ` separator; split at the first separator and
strip both sides; report lines with an empty side; otherwise yield the
mapping. -/
def parseMappingLine (line : List Char) : LineResult :=
  let l := pyStrip line
  if l.isEmpty then .skip
  else if l.head? = some '#' then .skip
  else
    match splitArrow l with
    | none => .malformed
    | some (a, b) =>
      let o := pyStrip a
      let n := pyStrip b
      if o.isEmpty || n.isEmpty then .malformed else .mapping o n

/-- The mappings that `rename_from_mapping_file` (source lines 438–465)
actually processes, in file order: skipped and malformed lines contribute
nothing and do not affect the remaining lines. -/
def acceptedMappings (lines : List (List Char)) :
    List (List Char × List Char) :=
  lines.foldr
    (fun line acc =>
      match parseMappingLine line with
      | .mapping o n => (o, n) :: acc
      | _ => acc)
    []

/-- ASCII-case-insensitive equality of character lists. -/
def ciEqB : List Char → List Char → Bool
  | [], [] => true
  | a :: as, b :: bs => lowEq a b && ciEqB as bs
  | _, _ => false

/-- A symbol of the configuration language: nonempty, over `[A-Z0-9_]`
(spec §3, "Data model"). -/
def validSymbolB (old : List Char) : Bool :=
  !old.isEmpty && old.all isSymTail

/-- The character preceding the position reached after reading `a` with
preceding character `prev`: the last character of `a`, or `prev` when `a`
is empty. -/
def ctxLast (prev : Option Char) : List Char → Option Char
  | [] => prev
  | c :: cs => ctxLast (some c) cs

/-- Scan for a case-insensitive whole-word occurrence of `old` (with the
given preceding character): true iff some split of the text carries a
`checkWordCI` match. -/
def hasOccCI (old : List Char) : Option Char → List Char → Bool
  | _, [] => false
  | prev, c :: cs => checkWordCI old prev (c :: cs) || hasOccCI old (some c) cs

/-- Scan for a case-sensitive whole-word occurrence of `old`. -/
def hasOccExact (old : List Char) : Option Char → List Char → Bool
  | _, [] => false
  | prev, c :: cs => checkWordExact old prev (c :: cs) || hasOccExact old (some c) cs

/-! ### Lemmas: character classes and case folding -/

theorem toLower_toNat (c : Char) (h : 65 ≤ c.toNat ∧ c.toNat ≤ 90) :
    (Char.toLower c).toNat = c.toNat + 32 := by
  have hv : (c.toNat + 32).isValidChar := Or.inl (by omega)
  unfold Char.toLower
  rw [if_pos ⟨h.1, h.2⟩, Char.ofNat, dif_pos hv]
  simp [Char.ofNatAux, Char.toNat, UInt32.toNat]

theorem toLower_eq_self (c : Char) (h : ¬(65 ≤ c.toNat ∧ c.toNat ≤ 90)) :
    Char.toLower c = c := by
  unfold Char.toLower
  rw [if_neg]
  exact fun hc => h ⟨hc.1, hc.2⟩

theorem ule_iff (a b : UInt32) : a ≤ b ↔ a.toNat ≤ b.toNat := by
  simp [UInt32.le_def, BitVec.le_def, UInt32.toNat]

theorem isUpper_iff (c : Char) : c.isUpper = true ↔ 65 ≤ c.toNat ∧ c.toNat ≤ 90 := by
  simp only [Char.isUpper, Bool.and_eq_true, decide_eq_true_eq, ule_iff]
  exact Iff.rfl

theorem isLower_iff (c : Char) : c.isLower = true ↔ 97 ≤ c.toNat ∧ c.toNat ≤ 122 := by
  simp only [Char.isLower, Bool.and_eq_true, decide_eq_true_eq, ule_iff]
  exact Iff.rfl

theorem isDigit_iff (c : Char) : c.isDigit = true ↔ 48 ≤ c.toNat ∧ c.toNat ≤ 57 := by
  simp only [Char.isDigit, Bool.and_eq_true, decide_eq_true_eq, ule_iff]
  exact Iff.rfl

theorem char_le_iff (a b : Char) : a ≤ b ↔ a.toNat ≤ b.toNat := by
  exact ule_iff a.val b.val

theorem char_eq_iff_toNat (a b : Char) : a = b ↔ a.toNat = b.toNat := by
  constructor
  · rintro rfl; rfl
  · intro h
    exact Char.ext (UInt32.toNat.inj h)

theorem isWordChar_toLower (c : Char) : isWordChar (Char.toLower c) = isWordChar c := by
  by_cases h : 65 ≤ c.toNat ∧ c.toNat ≤ 90
  · have h2 := toLower_toNat c h
    have hu : isWordChar c = true := by
      simp only [isWordChar, Char.isAlphanum, Char.isAlpha, Bool.or_eq_true]
      left; left; left
      exact (isUpper_iff c).mpr h
    have hl : isWordChar (Char.toLower c) = true := by
      simp only [isWordChar, Char.isAlphanum, Char.isAlpha, Bool.or_eq_true]
      left; left; right
      exact (isLower_iff _).mpr (by omega)
    rw [hu, hl]
  · rw [toLower_eq_self c h]

theorem lowEq_isWord {a b : Char} (h : lowEq a b = true) :
    isWordChar a = isWordChar b := by
  have hab : a.toLower = b.toLower := by
    simpa [lowEq] using h
  rw [← isWordChar_toLower a, hab, isWordChar_toLower b]

theorem isSymTail_toNat {c : Char} (h : isSymTail c = true) :
    (65 ≤ c.toNat ∧ c.toNat ≤ 90) ∨ (48 ≤ c.toNat ∧ c.toNat ≤ 57) ∨
      c.toNat = 95 := by
  simp only [isSymTail, Bool.or_eq_true, Bool.and_eq_true, decide_eq_true_eq] at h
  rcases h with (⟨h1, h2⟩ | h) | h
  · exact Or.inl ⟨(char_le_iff _ _).mp h1, (char_le_iff _ _).mp h2⟩
  · exact Or.inr (Or.inl (isDigit_iff c |>.mp h))
  · exact Or.inr (Or.inr ((char_eq_iff_toNat _ _).mp h))

theorem isSymTail_word {c : Char} (h : isSymTail c = true) :
    isWordChar c = true := by
  rcases isSymTail_toNat h with h | h | h
  · simp only [isWordChar, Char.isAlphanum, Char.isAlpha, Bool.or_eq_true]
    exact Or.inl (Or.inl (Or.inl ((isUpper_iff c).mpr h)))
  · simp only [isWordChar, Char.isAlphanum, Bool.or_eq_true]
    exact Or.inl (Or.inr ((isDigit_iff c).mpr h))
  · simp only [isWordChar, Bool.or_eq_true]
    refine Or.inr ?_
    rw [(char_eq_iff_toNat c '_').mpr h]
    decide

theorem pySpace_toNat {c : Char} (h : isPySpace c = true) :
    c.toNat = 32 ∨ c.toNat = 9 ∨ c.toNat = 10 ∨ c.toNat = 13 ∨
      c.toNat = 11 ∨ c.toNat = 12 := by
  simp only [isPySpace, Bool.or_eq_true, decide_eq_true_eq] at h
  rcases h with ((((h | h) | h) | h) | h) | h <;>
    simp [(char_eq_iff_toNat _ _).mp h]

theorem isSymTail_not_space {c : Char} (h : isSymTail c = true) :
    isPySpace c = false := by
  by_contra hc
  have := pySpace_toNat (c := c) (by revert hc; cases isPySpace c <;> simp)
  rcases isSymTail_toNat h with h2 | h2 | h2 <;> omega

theorem isSymTail_ne {c : Char} (h : isSymTail c = true) :
    c ≠ '\n' ∧ c ≠ '#' := by
  constructor <;> intro hc <;> subst hc <;> revert h <;> decide

theorem isWordChar_not_space {c : Char} (h : isWordChar c = true) :
    isPySpace c = false := by
  by_contra hc
  have hs := pySpace_toNat (c := c) (by revert hc; cases isPySpace c <;> simp)
  simp only [isWordChar, Char.isAlphanum, Char.isAlpha, Bool.or_eq_true] at h
  rcases h with ((h | h) | h) | h
  · have := (isUpper_iff c).mp h; omega
  · have := (isLower_iff c).mp h; omega
  · have := (isDigit_iff c).mp h; omega
  · have h2 : c = '_' := by simpa using h
    have h3 := (char_eq_iff_toNat c '_').mp h2
    have h95 : ('_' : Char).toNat = 95 := by decide
    omega

theorem isPySpace_not_word {c : Char} (h : isPySpace c = true) :
    isWordChar c = false := by
  by_contra hc
  have := isWordChar_not_space (c := c) (by revert hc; cases isWordChar c <;> simp)
  rw [h] at this
  exact absurd this (by decide)

/-! ### Lemmas: parsing combinators and contexts -/

theorem ctxLast_append (a : List Char) :
    ∀ (prev : Option Char) (b : List Char),
      ctxLast prev (a ++ b) = ctxLast (ctxLast prev a) b := by
  induction a with
  | nil => intro prev b; rfl
  | cons c t ih => intro prev b; exact ih (some c) b

theorem ctxLast_take (s : List Char) :
    ∀ (n : Nat) (prev : Option Char), n < s.length →
      ctxLast prev (s.take (n + 1)) = s.get? n := by
  induction s with
  | nil => intro n prev h; simp at h
  | cons c cs ih =>
    intro n prev h
    cases n with
    | zero => rfl
    | succ m =>
      have : m < cs.length := by simpa using h
      exact ih m (some c) this

theorem stripExact_some :
    ∀ {p s r : List Char}, stripExact p s = some r → s = p ++ r := by
  intro p
  induction p with
  | nil =>
    intro s r h
    simp only [stripExact, Option.some.injEq] at h
    simp [h]
  | cons x xs ih =>
    intro s r h
    cases s with
    | nil => simp [stripExact] at h
    | cons c cs =>
      by_cases hc : c = x
      · subst hc
        simp only [stripExact, if_pos rfl] at h
        simpa using ih h
      · simp [stripExact, hc] at h

theorem stripExact_of_append (p r : List Char) :
    stripExact p (p ++ r) = some r := by
  induction p with
  | nil => rfl
  | cons x xs ih => simpa [stripExact] using ih

theorem ciEqB_refl (l : List Char) : ciEqB l l = true := by
  induction l with
  | nil => rfl
  | cons c cs ih => simp [ciEqB, lowEq, ih]

theorem ciEqB_length :
    ∀ {a b : List Char}, ciEqB a b = true → a.length = b.length := by
  intro a
  induction a with
  | nil => intro b h; cases b with
    | nil => rfl
    | cons x xs => simp [ciEqB] at h
  | cons c cs ih =>
    intro b h
    cases b with
    | nil => simp [ciEqB] at h
    | cons x xs =>
      simp only [ciEqB, Bool.and_eq_true] at h
      simpa using ih h.2

theorem stripCI_some :
    ∀ {p s m r : List Char}, stripCI p s = some (m, r) →
      s = m ++ r ∧ ciEqB m p = true := by
  intro p
  induction p with
  | nil =>
    intro s m r h
    simp only [stripCI, Option.some.injEq, Prod.mk.injEq] at h
    obtain ⟨h1, h2⟩ := h
    subst h1; subst h2
    exact ⟨rfl, rfl⟩
  | cons x xs ih =>
    intro s m r h
    cases s with
    | nil => simp [stripCI] at h
    | cons c cs =>
      simp only [stripCI] at h
      by_cases hc : lowEq c x = true
      · rw [if_pos hc] at h
        cases hm : stripCI xs cs with
        | none => rw [hm] at h; simp at h
        | some p2 =>
          obtain ⟨m2, r2⟩ := p2
          rw [hm] at h
          simp only [Option.some.injEq, Prod.mk.injEq] at h
          obtain ⟨h1, h2⟩ := h
          obtain ⟨he, hci⟩ := ih hm
          subst h2
          rw [← h1]
          constructor
          · simp [he]
          · simp [ciEqB, hc, hci]
      · rw [if_neg hc] at h; simp at h

theorem stripCI_of_ciEqB :
    ∀ {v p : List Char} (r : List Char), ciEqB v p = true →
      stripCI p (v ++ r) = some (v, r) := by
  intro v
  induction v with
  | nil =>
    intro p r h
    cases p with
    | nil => rfl
    | cons x xs => simp [ciEqB] at h
  | cons c cs ih =>
    intro p r h
    cases p with
    | nil => simp [ciEqB] at h
    | cons x xs =>
      simp only [ciEqB, Bool.and_eq_true] at h
      simp [stripCI, h.1, ih r h.2]

theorem stripExact_stripCI {old s : List Char} {r : List Char}
    (h : stripExact old s = some r) : stripCI old s = some (old, r) := by
  have hs := stripExact_some h
  subst hs
  exact stripCI_of_ciEqB r (ciEqB_refl old)

theorem stripAnyKw_some :
    ∀ {ks : List (List Char)} {s k r : List Char},
      stripAnyKw ks s = some (k, r) → k ∈ ks ∧ s = k ++ r := by
  intro ks
  induction ks with
  | nil => intro s k r h; simp [stripAnyKw] at h
  | cons k0 kt ih =>
    intro s k r h
    simp only [stripAnyKw] at h
    cases hm : stripExact k0 s with
    | none =>
      rw [hm] at h
      obtain ⟨hk, hs⟩ := ih h
      exact ⟨List.mem_cons_of_mem _ hk, hs⟩
    | some r0 =>
      rw [hm] at h
      simp only [Option.some.injEq, Prod.mk.injEq] at h
      obtain ⟨h1, h2⟩ := h
      subst h1; subst h2
      exact ⟨List.mem_cons_self _ _, stripExact_some hm⟩

theorem splitLastNL_some :
    ∀ {w a b : List Char}, splitLastNL w = some (a, b) →
      w = a ++ b ∧ b.head? = some '\n' := by
  intro w
  induction w with
  | nil => intro a b h; simp [splitLastNL] at h
  | cons c cs ih =>
    intro a b h
    simp only [splitLastNL] at h
    cases hm : splitLastNL cs with
    | some p2 =>
      obtain ⟨a2, b2⟩ := p2
      rw [hm] at h
      simp only [Option.some.injEq, Prod.mk.injEq] at h
      obtain ⟨h1, h2⟩ := h
      obtain ⟨he, hh⟩ := ih hm
      subst h2
      rw [← h1]
      exact ⟨by simp [he], hh⟩
    | none =>
      rw [hm] at h
      by_cases hc : c = '\n'
      · rw [if_pos hc] at h
        simp only [Option.some.injEq, Prod.mk.injEq] at h
        obtain ⟨h1, h2⟩ := h
        subst h1; subst h2
        exact ⟨rfl, by simp [hc]⟩
      · rw [if_neg hc] at h; simp at h

theorem dropWhile_head_not {p : Char → Bool} :
    ∀ {s : List Char} {c : Char} {cs : List Char},
      s.dropWhile p = c :: cs → p c = false := by
  intro s
  induction s with
  | nil => intro c cs h; simp [List.dropWhile] at h
  | cons a t ih =>
    intro c cs h
    simp only [List.dropWhile] at h
    by_cases ha : p a = true
    · rw [ha] at h
      exact ih h
    · have ha2 : p a = false := by revert ha; cases p a <;> simp
      rw [ha2] at h
      simp only [List.cons.injEq] at h
      rw [← h.1]
      exact ha2

theorem wsDollar_some {s g r : List Char} (h : wsDollar s = some (g, r)) :
    s = g ++ r ∧ (∀ c ∈ g, isPySpace c = true) ∧
      (r = [] ∨ r.head? = some '\n') := by
  unfold wsDollar at h
  by_cases he : (s.dropWhile isPySpace).isEmpty
  · rw [if_pos he] at h
    simp only [Option.some.injEq, Prod.mk.injEq] at h
    obtain ⟨h1, h2⟩ := h
    subst h1; subst h2
    refine ⟨?_, fun c hc => List.mem_takeWhile_imp hc, Or.inl rfl⟩
    have : s.dropWhile isPySpace = [] := by
      revert he; cases s.dropWhile isPySpace <;> simp [List.isEmpty]
    conv_lhs => rw [← List.takeWhile_append_dropWhile (p := isPySpace) (l := s)]
    rw [this]
  · rw [if_neg he] at h
    cases hm : splitLastNL (s.takeWhile isPySpace) with
    | none => rw [hm] at h; simp at h
    | some p2 =>
      obtain ⟨a, b⟩ := p2
      rw [hm] at h
      simp only [Option.some.injEq, Prod.mk.injEq] at h
      obtain ⟨h1, h2⟩ := h
      subst h1; subst h2
      obtain ⟨hw, hh⟩ := splitLastNL_some hm
      constructor
      · conv_lhs => rw [← List.takeWhile_append_dropWhile (p := isPySpace) (l := s)]
        rw [hw]
        simp
      constructor
      · intro c hc
        have : c ∈ s.takeWhile isPySpace := by rw [hw]; exact List.mem_append_left _ hc
        exact List.mem_takeWhile_imp this
      · right
        cases b with
        | nil => simp at hh
        | cons b0 bt => simpa using hh

/-! ### Lemmas: occurrence scanners and the substitution driver -/

theorem checkWordCI_ne_nil {old : List Char} {p : Option Char}
    (hold : old ≠ []) (h : checkWordCI old p [] = true) : False := by
  cases old with
  | nil => exact hold rfl
  | cons x xs => simp [checkWordCI, stripCI] at h

theorem hasOccCI_here {old : List Char} {p : Option Char} {rest : List Char}
    (hold : old ≠ []) (h : checkWordCI old p rest = true) :
    hasOccCI old p rest = true := by
  cases rest with
  | nil => exact absurd h (by intro hh; exact checkWordCI_ne_nil hold hh)
  | cons c cs => simp [hasOccCI, h]

theorem hasOccCI_lift {old : List Char} :
    ∀ (a : List Char) {prev : Option Char} {rest : List Char},
      hasOccCI old (ctxLast prev a) rest = true →
      hasOccCI old prev (a ++ rest) = true := by
  intro a
  induction a with
  | nil => intro prev rest h; exact h
  | cons c t ih =>
    intro prev rest h
    have h2 : hasOccCI old (some c) (t ++ rest) = true := @ih (some c) _ h
    show hasOccCI old prev (c :: (t ++ rest)) = true
    cases ht : t ++ rest with
    | nil => rw [ht] at h2; simp [hasOccCI] at h2
    | cons y ys =>
      have hdef : hasOccCI old prev (c :: y :: ys) =
          (checkWordCI old prev (c :: y :: ys) || hasOccCI old (some c) (y :: ys)) := rfl
      rw [ht] at h2
      rw [hdef, h2, Bool.or_true]

theorem hasOccCI_at {old : List Char} {prev : Option Char}
    {s a rest : List Char} (hold : old ≠ []) (hs : s = a ++ rest)
    (h : checkWordCI old (ctxLast prev a) rest = true) :
    hasOccCI old prev s = true := by
  subst hs
  exact hasOccCI_lift a (hasOccCI_here hold h)

theorem checkWordExact_ci {old : List Char} {p : Option Char} {s : List Char}
    (h : checkWordExact old p s = true) : checkWordCI old p s = true := by
  unfold checkWordExact at h
  cases hm : stripExact old s with
  | none => rw [hm] at h; simp at h
  | some r =>
    rw [hm] at h
    unfold checkWordCI
    rw [stripExact_stripCI hm]
    exact h

theorem runSubF_self (t : Option Char → List Char → Option (List Char × Nat)) :
    ∀ (fuel : Nat) (prev : Option Char) (s : List Char),
      (∀ (a rest : List Char) (z : List Char × Nat), s = a ++ rest →
        t (ctxLast prev a) rest = some z → z.1 = rest.take z.2) →
      runSubF t fuel prev s = s := by
  intro fuel
  induction fuel with
  | zero => intro prev s h; rfl
  | succ fu ih =>
    intro prev s h
    cases s with
    | nil => rfl
    | cons c cs =>
      show runSubF t (fu + 1) prev (c :: cs) = c :: cs
      cases hm : t prev (c :: cs) with
      | none =>
        simp only [runSubF, hm]
        congr 1
        exact ih (some c) cs (fun a rest z hs hz =>
          h (c :: a) rest z (by simp [hs]) hz)
      | some z =>
        obtain ⟨rep, n⟩ := z
        cases n with
        | zero =>
          simp only [runSubF, hm]
          congr 1
          exact ih (some c) cs (fun a rest z hs hz =>
            h (c :: a) rest z (by simp [hs]) hz)
        | succ m =>
          have hrep : rep = (c :: cs).take (m + 1) :=
            h [] (c :: cs) (rep, m + 1) rfl hm
          simp only [runSubF, hm]
          by_cases hlen : m < cs.length
          · have hctx : ctxLast prev ((c :: cs).take (m + 1)) = (c :: cs).get? m :=
              ctxLast_take (c :: cs) m prev (by simpa using Nat.lt_succ_of_lt hlen)
            have hrest : runSubF t fu ((c :: cs).get? m) (cs.drop m) = cs.drop m := by
              apply ih
              intro a rest z hs hz
              apply h ((c :: cs).take (m + 1) ++ a) rest z
              · rw [List.append_assoc, ← hs]
                conv_lhs => rw [← List.take_append_drop (m + 1) (c :: cs)]
                rfl
              · rw [ctxLast_append, hctx]
                exact hz
            rw [hrest, hrep]
            conv_rhs => rw [← List.take_append_drop (m + 1) (c :: cs)]
            rfl
          · have hge : cs.length ≤ m := Nat.le_of_not_lt hlen
            have hdrop : cs.drop m = [] := List.drop_eq_nil_of_le hge
            have htake : (c :: cs).take (m + 1) = c :: cs := by
              apply List.take_of_length_le
              simpa using Nat.succ_le_succ hge
            rw [hdrop, hrep, htake]
            cases fu <;> simp [runSubF]

theorem applySub_self {t : Option Char → List Char → Option (List Char × Nat)}
    {s : List Char}
    (h : ∀ (a rest : List Char) (z : List Char × Nat), s = a ++ rest →
      t (ctxLast none a) rest = some z → z.1 = rest.take z.2) :
    applySub t s = s :=
  runSubF_self t (s.length + 1) none s h

/-! ### Lemmas: word boundaries and flank characters -/

theorem validSymbolB_ne_nil {old : List Char} (h : validSymbolB old = true) :
    old ≠ [] := by
  intro hc
  subst hc
  simp [validSymbolB, List.isEmpty] at h

theorem validSymbolB_mem {old : List Char} (h : validSymbolB old = true) :
    ∀ c ∈ old, isSymTail c = true := by
  simp only [validSymbolB, Bool.and_eq_true, List.all_eq_true] at h
  exact h.2

theorem valid_head_word {old : List Char} (h : validSymbolB old = true) :
    optWord old.head? = true := by
  cases old with
  | nil => exact absurd rfl (validSymbolB_ne_nil h)
  | cons c cs =>
    show isWordChar c = true
    exact isSymTail_word (validSymbolB_mem h c (List.mem_cons_self c cs))

theorem getLast?_mem_self :
    ∀ {l : List Char} {x : Char}, l.getLast? = some x → x ∈ l := by
  intro l
  induction l with
  | nil => intro x h; simp at h
  | cons c cs ih =>
    intro x h
    cases cs with
    | nil =>
      simp only [List.getLast?_singleton, Option.some.injEq] at h
      simp [h]
    | cons d ds =>
      rw [List.getLast?_cons_cons] at h
      exact List.mem_cons_of_mem _ (ih h)

theorem valid_last_word {old : List Char} (h : validSymbolB old = true) :
    optWord old.getLast? = true := by
  cases hl : old.getLast? with
  | none =>
    cases old with
    | nil => exact absurd rfl (validSymbolB_ne_nil h)
    | cons c cs => rw [List.getLast?_eq_none_iff] at hl; simp at hl
  | some x =>
    show isWordChar x = true
    exact isSymTail_word (validSymbolB_mem h x (getLast?_mem_self hl))

theorem wordB_nw_w {x y : Option Char} (hx : optWord x = false)
    (hy : optWord y = true) : wordB x y = true := by
  simp [wordB, hx, hy]

theorem wordB_w_nw {x y : Option Char} (hx : optWord x = true)
    (hy : optWord y = false) : wordB x y = true := by
  simp [wordB, hx, hy]

theorem wordB_w_w {x y : Option Char} (hx : optWord x = true)
    (hy : optWord y = true) : wordB x y = false := by
  simp [wordB, hx, hy]

theorem ctxLast_irrel :
    ∀ {a : List Char} (p1 p2 : Option Char), a ≠ [] →
      ctxLast p1 a = ctxLast p2 a := by
  intro a
  induction a with
  | nil => intro p1 p2 h; exact absurd rfl h
  | cons c cs ih =>
    intro p1 p2 _
    cases cs with
    | nil => rfl
    | cons d ds => exact ih (some c) (some c) (by simp)

theorem ctxLast_of_ne_nil :
    ∀ (a : List Char) (prev : Option Char), a ≠ [] →
      ∃ x, ctxLast prev a = some x ∧ x ∈ a := by
  intro a
  induction a with
  | nil => intro prev h; exact absurd rfl h
  | cons c cs ih =>
    intro prev _
    cases cs with
    | nil => exact ⟨c, rfl, List.mem_cons_self _ _⟩
    | cons d ds =>
      obtain ⟨x, hx, hm⟩ := ih (some c) (by simp)
      exact ⟨x, hx, List.mem_cons_of_mem _ hm⟩

theorem ctxLast_getLastD :
    ∀ (a : List Char) (prev : Option Char) (d : Char), a ≠ [] →
      ctxLast prev a = some (a.getLastD d) := by
  intro a
  induction a with
  | nil => intro prev d h; exact absurd rfl h
  | cons c cs ih =>
    intro prev d _
    cases cs with
    | nil => rfl
    | cons e es =>
      show ctxLast (some c) (e :: es) = some ((e :: es).getLastD c)
      exact ih prev c (by simp) ▸ ih (some c) c (by simp)

theorem optWord_ctxLast_of_all {a : List Char} {prev : Option Char}
    (h : ∀ c ∈ a, isWordChar c = false) (hne : a ≠ []) :
    optWord (ctxLast prev a) = false := by
  obtain ⟨x, hx, hm⟩ := ctxLast_of_ne_nil a prev hne
  rw [hx]
  exact h x hm

theorem optWord_ctxLast_space {a : List Char} {prev : Option Char}
    (h : ∀ c ∈ a, isPySpace c = true) (hne : a ≠ []) :
    optWord (ctxLast prev a) = false :=
  optWord_ctxLast_of_all (fun c hc => isPySpace_not_word (h c hc)) hne

theorem takeWhile_all {p : Char → Bool} {s : List Char} :
    ∀ c ∈ s.takeWhile p, p c = true :=
  fun _ hc => List.mem_takeWhile_imp hc

theorem takeWhile_nonempty_head {p : Char → Bool} {s : List Char}
    (h : s.takeWhile p ≠ []) : ∃ c cs, s = c :: cs ∧ p c = true := by
  cases s with
  | nil => simp [List.takeWhile] at h
  | cons c cs =>
    refine ⟨c, cs, rfl, ?_⟩
    by_contra hc
    have hc2 : p c = false := by revert hc; cases p c <;> simp
    simp [List.takeWhile, hc2] at h

theorem wsDollar_head_nonword {r : List Char} {z : List Char × List Char}
    (h : wsDollar r = some z) : optWord r.head? = false := by
  obtain ⟨hr, hg, hrest⟩ := wsDollar_some (s := r) (g := z.1) (r := z.2) (by
    cases z; exact h)
  cases hz1 : z.1 with
  | cons c cs =>
    have : r.head? = some c := by rw [hr, hz1]; rfl
    rw [this]
    exact isPySpace_not_word (hg c (by rw [hz1]; exact List.mem_cons_self _ _))
  | nil =>
    rw [hz1] at hr
    simp only [List.nil_append] at hr
    rcases hrest with h2 | h2
    · rw [hr, h2]; rfl
    · rw [hr, h2]
      decide

theorem checkWordCI_build {old vo r : List Char} {ctx : Option Char}
    (hci : ciEqB vo old = true) (hl : wordB ctx old.head? = true)
    (hr : wordB old.getLast? r.head? = true) :
    checkWordCI old ctx (vo ++ r) = true := by
  unfold checkWordCI
  rw [stripCI_of_ciEqB r hci]
  dsimp only
  rw [hl, hr]
  rfl

theorem ctx_space_append {x w1 : List Char} {prev : Option Char}
    (hw : ∀ c ∈ w1, isPySpace c = true) (hne : w1 ≠ []) :
    optWord (ctxLast prev (x ++ w1)) = false := by
  rw [ctxLast_append]
  exact optWord_ctxLast_space hw hne

theorem isEmpty_false_ne_nil {l : List Char} (h : l.isEmpty = false) :
    l ≠ [] := by
  intro hc
  subst hc
  simp [List.isEmpty] at h

theorem not_isEmpty_ne_nil {l : List Char} (h : ¬l.isEmpty = true) :
    l ≠ [] := by
  intro hc
  subst hc
  simp [List.isEmpty] at h

/-! ### Lemmas: each rewrite rule fires only at a whole-word occurrence -/

theorem tryKwLine_occ {kws : List (List Char)} {old new : List Char}
    {prev : Option Char} {s : List Char} {z : List Char × Nat}
    (hold : validSymbolB old = true)
    (h : tryKwLine kws old new prev s = some z) :
    hasOccCI old prev s = true := by
  unfold tryKwLine at h
  split at h
  · cases hkw : stripAnyKw kws (s.dropWhile isPySpace) with
    | none => rw [hkw] at h; simp at h
    | some kr =>
      obtain ⟨kw, r1⟩ := kr
      rw [hkw] at h
      dsimp only at h
      split at h
      · simp at h
      · rename_i hw1
        cases hse : stripExact old (r1.dropWhile isPySpace) with
        | none => rw [hse] at h; simp at h
        | some r3 =>
          rw [hse] at h
          dsimp only at h
          cases hwd : wsDollar r3 with
          | none => rw [hwd] at h; simp at h
          | some g2r =>
            have hw1ne : r1.takeWhile isPySpace ≠ [] :=
              not_isEmpty_ne_nil hw1
            have hs2 := stripAnyKw_some hkw
            have hs3 := stripExact_some hse
            have hsplit : s = (s.takeWhile isPySpace ++ kw ++ r1.takeWhile isPySpace) ++
                (old ++ r3) := by
              conv_lhs => rw [← List.takeWhile_append_dropWhile (p := isPySpace) (l := s)]
              rw [hs2.2]
              conv_lhs => rw [← List.takeWhile_append_dropWhile (p := isPySpace) (l := r1)]
              rw [hs3]
              simp [List.append_assoc]
            apply hasOccCI_at (validSymbolB_ne_nil hold) hsplit
            apply checkWordCI_build (ciEqB_refl old)
            · apply wordB_nw_w ?_ (valid_head_word hold)
              exact ctx_space_append takeWhile_all hw1ne
            · exact wordB_w_nw (valid_last_word hold) (wsDollar_head_nonword hwd)
  · simp at h

theorem head_nonword_of_takeWhile_space {r : List Char}
    (h : r.takeWhile isPySpace ≠ []) : optWord r.head? = false := by
  obtain ⟨c, cs, hr, hc⟩ := takeWhile_nonempty_head h
  rw [hr]
  exact isPySpace_not_word hc

theorem try3_occ {old new : List Char} {prev : Option Char} {s : List Char}
    {z : List Char × Nat} (hold : validSymbolB old = true)
    (h : try3 old new prev s = some z) : hasOccCI old prev s = true := by
  unfold try3 at h
  split at h
  · cases hke : stripExact kwEndif (s.dropWhile isPySpace) with
    | none => rw [hke] at h; simp at h
    | some r1 =>
      rw [hke] at h
      dsimp only at h
      split at h
      · rename_i r2 heq
        cases hse : stripExact old (r2.dropWhile isPySpace) with
        | none => rw [hse] at h; simp at h
        | some r3 =>
          rw [hse] at h
          dsimp only at h
          cases hwd : wsDollar r3 with
          | none => rw [hwd] at h; simp at h
          | some g2r =>
            have hsplit : s = ((s.takeWhile isPySpace ++ kwEndif ++
                r1.takeWhile isPySpace) ++ ('#' :: r2.takeWhile isPySpace)) ++
                (old ++ r3) := by
              conv_lhs => rw [← List.takeWhile_append_dropWhile (p := isPySpace) (l := s)]
              rw [stripExact_some hke]
              conv_lhs => rw [← List.takeWhile_append_dropWhile (p := isPySpace) (l := r1)]
              rw [heq]
              conv_lhs => rw [← List.takeWhile_append_dropWhile (p := isPySpace) (l := r2)]
              rw [stripExact_some hse]
              simp [List.append_assoc]
            apply hasOccCI_at (validSymbolB_ne_nil hold) hsplit
            apply checkWordCI_build (ciEqB_refl old)
            · apply wordB_nw_w ?_ (valid_head_word hold)
              rw [ctxLast_append]
              apply optWord_ctxLast_of_all ?_ (by simp)
              intro c hc
              rcases List.mem_cons.mp hc with hc | hc
              · subst hc; decide
              · exact isPySpace_not_word (takeWhile_all c hc)
            · exact wordB_w_nw (valid_last_word hold) (wsDollar_head_nonword hwd)
      · simp at h
  · simp at h

theorem lastHit_some {old : List Char} :
    ∀ {t : List Char} {p : Char} {k : Nat}, lastHit old p t = some k →
      ∃ a2 rest, t = a2 ++ rest ∧ a2.length = k ∧
        checkWordCI old (ctxLast (some p) a2) rest = true := by
  intro t
  induction t with
  | nil => intro p k h; simp [lastHit] at h
  | cons c cs ih =>
    intro p k h
    unfold lastHit at h
    cases hin : (if c = '#' ∨ c = '\n' then none else lastHit old c cs) with
    | some j =>
      rw [hin] at h
      dsimp only at h
      have hk : k = j + 1 := by
        have := h
        simp only [Option.some.injEq] at this
        omega
      have hlh : lastHit old c cs = some j := by
        by_cases hg : c = '#' ∨ c = '\n'
        · rw [if_pos hg] at hin; simp at hin
        · rw [if_neg hg] at hin; exact hin
      obtain ⟨a2, rest, h1, h2, h3⟩ := ih hlh
      refine ⟨c :: a2, rest, by simp [h1], by simp [h2, hk], ?_⟩
      exact h3
    | none =>
      rw [hin] at h
      dsimp only at h
      split at h
      · rename_i hcw
        have hk : k = 0 := by
          simp only [Option.some.injEq] at h
          omega
        subst hk
        exact ⟨[], c :: cs, rfl, rfl, hcw⟩
      · simp at h

theorem try4_occ {old new : List Char} {prev : Option Char} {s : List Char}
    {z : List Char × Nat} (hold : validSymbolB old = true)
    (h : try4 old new prev s = some z) : hasOccCI old prev s = true := by
  unfold try4 at h
  cases hkd : stripCI kwDepends s with
  | none => rw [hkd] at h; simp at h
  | some kdr =>
    obtain ⟨kd, r1⟩ := kdr
    rw [hkd] at h
    dsimp only at h
    split at h
    · split at h
      · simp at h
      · rename_i hw1
        cases hko : stripCI kwOn (r1.dropWhile isPySpace) with
        | none => rw [hko] at h; simp at h
        | some kor =>
          obtain ⟨ko, r2⟩ := kor
          rw [hko] at h
          dsimp only at h
          split at h
          · simp at h
          · rename_i hw2
            cases hlh : lastHit old ((r2.takeWhile isPySpace).getLastD ' ')
                (r2.dropWhile isPySpace) with
            | none => rw [hlh] at h; simp at h
            | some k =>
              have hw1ne : r1.takeWhile isPySpace ≠ [] :=
                not_isEmpty_ne_nil hw1
              have hw2ne : r2.takeWhile isPySpace ≠ [] :=
                not_isEmpty_ne_nil hw2
              obtain ⟨a2, rest, h1, _, h3⟩ := lastHit_some hlh
              have hsplit : s = (kd ++ r1.takeWhile isPySpace ++ ko ++
                  r2.takeWhile isPySpace ++ a2) ++ rest := by
                rw [(stripCI_some hkd).1]
                conv_lhs => rw [← List.takeWhile_append_dropWhile (p := isPySpace) (l := r1)]
                rw [(stripCI_some hko).1]
                conv_lhs => rw [← List.takeWhile_append_dropWhile (p := isPySpace) (l := r2)]
                rw [h1]
                simp [List.append_assoc]
              apply hasOccCI_at (validSymbolB_ne_nil hold) hsplit
              have hctx : ctxLast prev (kd ++ r1.takeWhile isPySpace ++ ko ++
                  r2.takeWhile isPySpace ++ a2) =
                  ctxLast (some ((r2.takeWhile isPySpace).getLastD ' ')) a2 := by
                rw [ctxLast_append]
                congr 1
                rw [ctxLast_append]
                exact ctxLast_getLastD _ _ ' ' hw2ne
              rw [hctx]
              exact h3
    · simp at h

theorem try12_occ {old new : List Char} {prev : Option Char} {s : List Char}
    {z : List Char × Nat} (hold : validSymbolB old = true)
    (h : try12 old new prev s = some z) : hasOccCI old prev s = true := by
  unfold try12 at h
  cases hkd : stripCI kwVisible s with
  | none => rw [hkd] at h; simp at h
  | some kdr =>
    obtain ⟨kv, r1⟩ := kdr
    rw [hkd] at h
    dsimp only at h
    split at h
    · split at h
      · simp at h
      · rename_i hw1
        cases hko : stripCI kwIf (r1.dropWhile isPySpace) with
        | none => rw [hko] at h; simp at h
        | some kor =>
          obtain ⟨ki, r2⟩ := kor
          rw [hko] at h
          dsimp only at h
          split at h
          · simp at h
          · rename_i hw2
            cases hlh : lastHit old ((r2.takeWhile isPySpace).getLastD ' ')
                (r2.dropWhile isPySpace) with
            | none => rw [hlh] at h; simp at h
            | some k =>
              have hw2ne : r2.takeWhile isPySpace ≠ [] :=
                not_isEmpty_ne_nil hw2
              obtain ⟨a2, rest, h1, _, h3⟩ := lastHit_some hlh
              have hsplit : s = (kv ++ r1.takeWhile isPySpace ++ ki ++
                  r2.takeWhile isPySpace ++ a2) ++ rest := by
                rw [(stripCI_some hkd).1]
                conv_lhs => rw [← List.takeWhile_append_dropWhile (p := isPySpace) (l := r1)]
                rw [(stripCI_some hko).1]
                conv_lhs => rw [← List.takeWhile_append_dropWhile (p := isPySpace) (l := r2)]
                rw [h1]
                simp [List.append_assoc]
              apply hasOccCI_at (validSymbolB_ne_nil hold) hsplit
              have hctx : ctxLast prev (kv ++ r1.takeWhile isPySpace ++ ki ++
                  r2.takeWhile isPySpace ++ a2) =
                  ctxLast (some ((r2.takeWhile isPySpace).getLastD ' ')) a2 := by
                rw [ctxLast_append]
                congr 1
                rw [ctxLast_append]
                exact ctxLast_getLastD _ _ ' ' hw2ne
              rw [hctx]
              exact h3
    · simp at h

theorem try10_occ {old new : List Char} {prev : Option Char} {s : List Char}
    {z : List Char × Nat} (hold : validSymbolB old = true)
    (h : try10 old new prev s = some z) : hasOccCI old prev s = true := by
  unfold try10 at h
  cases hki : stripCI kwIf s with
  | none => rw [hki] at h; simp at h
  | some kir =>
    obtain ⟨ki, r1⟩ := kir
    rw [hki] at h
    dsimp only at h
    split at h
    · split at h
      · simp at h
      · rename_i hw1
        cases hvo : stripCI old (r1.dropWhile isPySpace) with
        | none => rw [hvo] at h; simp at h
        | some vor =>
          obtain ⟨vo, r2⟩ := vor
          rw [hvo] at h
          dsimp only at h
          split at h
          · rename_i hb
            have hw1ne : r1.takeWhile isPySpace ≠ [] :=
              not_isEmpty_ne_nil hw1
            have hsplit : s = (ki ++ r1.takeWhile isPySpace) ++ (vo ++ r2) := by
              rw [(stripCI_some hki).1]
              conv_lhs => rw [← List.takeWhile_append_dropWhile (p := isPySpace) (l := r1)]
              rw [(stripCI_some hvo).1]
              simp [List.append_assoc]
            apply hasOccCI_at (validSymbolB_ne_nil hold) hsplit
            apply checkWordCI_build (stripCI_some hvo).2
            · apply wordB_nw_w ?_ (valid_head_word hold)
              exact ctx_space_append takeWhile_all hw1ne
            · exact hb
          · simp at h
    · simp at h

theorem try8b_occ {old new : List Char} {prev : Option Char} {s : List Char}
    {z : List Char × Nat} (hold : validSymbolB old = true)
    (h : try8b old new prev s = some z) : hasOccCI old prev s = true := by
  unfold try8b at h
  split at h
  · cases hkw : stripExact kwChoice (s.dropWhile isPySpace) with
    | none => rw [hkw] at h; simp at h
    | some r1 =>
      rw [hkw] at h
      dsimp only at h
      split at h
      · simp at h
      · rename_i hw1
        cases hse : stripExact old (r1.dropWhile isPySpace) with
        | none => rw [hse] at h; simp at h
        | some r3 =>
          rw [hse] at h
          dsimp only at h
          split at h
          · rename_i hb
            have hw1ne : r1.takeWhile isPySpace ≠ [] :=
              not_isEmpty_ne_nil hw1
            have hsplit : s = (s.takeWhile isPySpace ++ kwChoice ++
                r1.takeWhile isPySpace) ++ (old ++ r3) := by
              conv_lhs => rw [← List.takeWhile_append_dropWhile (p := isPySpace) (l := s)]
              rw [stripExact_some hkw]
              conv_lhs => rw [← List.takeWhile_append_dropWhile (p := isPySpace) (l := r1)]
              rw [stripExact_some hse]
              simp [List.append_assoc]
            apply hasOccCI_at (validSymbolB_ne_nil hold) hsplit
            apply checkWordCI_build (ciEqB_refl old)
            · apply wordB_nw_w ?_ (valid_head_word hold)
              exact ctx_space_append takeWhile_all hw1ne
            · exact hb
          · simp at h
  · simp at h

theorem try11a_occ {old new : List Char} {prev : Option Char} {s : List Char}
    {z : List Char × Nat} (hold : validSymbolB old = true)
    (h : try11a old new prev s = some z) : hasOccCI old prev s = true := by
  unfold try11a at h
  split at h
  · cases hkw : stripExact kwRange (s.dropWhile isPySpace) with
    | none => rw [hkw] at h; simp at h
    | some r1 =>
      rw [hkw] at h
      dsimp only at h
      split at h
      · simp at h
      · rename_i hw1
        split at h
        · simp at h
        · rename_i htok
          split at h
          · simp at h
          · rename_i hw2
            cases hse : stripExact old
                (((r1.dropWhile isPySpace).dropWhile (fun c => !isPySpace c)).dropWhile
                  isPySpace) with
            | none => rw [hse] at h; simp at h
            | some r4 =>
              rw [hse] at h
              dsimp only at h
              cases hwd : wsDollar r4 with
              | none => rw [hwd] at h; simp at h
              | some g2r =>
                have hw2ne : (((r1.dropWhile isPySpace).dropWhile
                    (fun c => !isPySpace c)).takeWhile isPySpace) ≠ [] :=
                  not_isEmpty_ne_nil hw2
                have hsplit : s = (s.takeWhile isPySpace ++ kwRange ++
                    r1.takeWhile isPySpace ++
                    (r1.dropWhile isPySpace).takeWhile (fun c => !isPySpace c) ++
                    ((r1.dropWhile isPySpace).dropWhile
                      (fun c => !isPySpace c)).takeWhile isPySpace) ++ (old ++ r4) := by
                  conv_lhs => rw [← List.takeWhile_append_dropWhile (p := isPySpace) (l := s)]
                  rw [stripExact_some hkw]
                  conv_lhs => rw [← List.takeWhile_append_dropWhile (p := isPySpace) (l := r1)]
                  conv_lhs =>
                    rw [← List.takeWhile_append_dropWhile (p := fun c => !isPySpace c)
                      (l := r1.dropWhile isPySpace)]
                  conv_lhs =>
                    rw [← List.takeWhile_append_dropWhile (p := isPySpace)
                      (l := (r1.dropWhile isPySpace).dropWhile (fun c => !isPySpace c))]
                  rw [stripExact_some hse]
                  simp [List.append_assoc]
                apply hasOccCI_at (validSymbolB_ne_nil hold) hsplit
                apply checkWordCI_build (ciEqB_refl old)
                · apply wordB_nw_w ?_ (valid_head_word hold)
                  exact ctx_space_append takeWhile_all hw2ne
                · exact wordB_w_nw (valid_last_word hold) (wsDollar_head_nonword hwd)
  · simp at h

theorem try11b_occ {old new : List Char} {prev : Option Char} {s : List Char}
    {z : List Char × Nat} (hold : validSymbolB old = true)
    (h : try11b old new prev s = some z) : hasOccCI old prev s = true := by
  unfold try11b at h
  split at h
  · cases hkw : stripExact kwRange (s.dropWhile isPySpace) with
    | none => rw [hkw] at h; simp at h
    | some r1 =>
      rw [hkw] at h
      dsimp only at h
      split at h
      · simp at h
      · rename_i hw1
        cases hse : stripExact old (r1.dropWhile isPySpace) with
        | none => rw [hse] at h; simp at h
        | some r2 =>
          rw [hse] at h
          dsimp only at h
          split at h
          · simp at h
          · rename_i hw2
            have hw1ne : r1.takeWhile isPySpace ≠ [] :=
              not_isEmpty_ne_nil hw1
            have hw2ne : r2.takeWhile isPySpace ≠ [] :=
              not_isEmpty_ne_nil hw2
            have hsplit : s = (s.takeWhile isPySpace ++ kwRange ++
                r1.takeWhile isPySpace) ++ (old ++ r2) := by
              conv_lhs => rw [← List.takeWhile_append_dropWhile (p := isPySpace) (l := s)]
              rw [stripExact_some hkw]
              conv_lhs => rw [← List.takeWhile_append_dropWhile (p := isPySpace) (l := r1)]
              rw [stripExact_some hse]
              simp [List.append_assoc]
            apply hasOccCI_at (validSymbolB_ne_nil hold) hsplit
            apply checkWordCI_build (ciEqB_refl old)
            · apply wordB_nw_w ?_ (valid_head_word hold)
              exact ctx_space_append takeWhile_all hw1ne
            · exact wordB_w_nw (valid_last_word hold)
                (head_nonword_of_takeWhile_space hw2ne)
  · simp at h

/-! ### Lemmas: rule 6 never alters anything beyond whole-word occurrences -/

theorem ciEqB_all_word :
    ∀ {a b : List Char}, ciEqB a b = true →
      (∀ c ∈ b, isWordChar c = true) → ∀ c ∈ a, isWordChar c = true := by
  intro a
  induction a with
  | nil => intro b _ _ c hc; simp at hc
  | cons x xs ih =>
    intro b h hb c hc
    cases b with
    | nil => simp [ciEqB] at h
    | cons y ys =>
      simp only [ciEqB, Bool.and_eq_true] at h
      rcases List.mem_cons.mp hc with hc | hc
      · subst hc
        rw [lowEq_isWord h.1]
        exact hb y (List.mem_cons_self _ _)
      · exact ih h.2 (fun d hd => hb d (List.mem_cons_of_mem _ hd)) c hc

theorem ciEqB_map_toLower :
    ∀ {a b : List Char}, ciEqB a b = true →
      (∀ c ∈ b, Char.toLower c = c) → a.map Char.toLower = b := by
  intro a
  induction a with
  | nil => intro b h _; cases b with
    | nil => rfl
    | cons y ys => simp [ciEqB] at h
  | cons x xs ih =>
    intro b h hb
    cases b with
    | nil => simp [ciEqB] at h
    | cons y ys =>
      simp only [ciEqB, Bool.and_eq_true] at h
      have hx : x.toLower = y := by
        have h1 : x.toLower = y.toLower := by simpa [lowEq] using h.1
        rw [h1]
        exact hb y (List.mem_cons_self _ _)
      simp only [List.map_cons, hx]
      rw [ih h.2 (fun d hd => hb d (List.mem_cons_of_mem _ hd))]

theorem kwDepends_word : ∀ c ∈ kwDepends, isWordChar c = true := by decide

theorem kwDepends_lower : ∀ c ∈ kwDepends, Char.toLower c = c := by decide

theorem span_start_no_match {old kd tail : List Char}
    (hold : validSymbolB old = true)
    (hlow : old.map Char.toLower ≠ kwDepends)
    (hkd : ciEqB kd kwDepends = true)
    (htail : optWord tail.head? = false)
    (h : checkWordExact old none (kd ++ tail) = true) : False := by
  unfold checkWordExact at h
  cases hse : stripExact old (kd ++ tail) with
  | none => rw [hse] at h; simp at h
  | some r =>
    rw [hse] at h
    dsimp only at h
    simp only [Bool.and_eq_true] at h
    have hsplit : kd ++ tail = old ++ r := stripExact_some hse
    have hkdlen : kd.length = 7 := by
      have h1 := ciEqB_length hkd
      have h2 : kwDepends.length = 7 := by decide
      omega
    rcases Nat.lt_trichotomy old.length 7 with hlt | heq | hgt
    · have hsplit2 : kd.take old.length ++ (kd.drop old.length ++ tail) =
          old ++ r := by
        rw [← List.append_assoc, List.take_append_drop]
        exact hsplit
      have hlen : (kd.take old.length).length = old.length := by
        rw [List.length_take]
        omega
      obtain ⟨heq1, heq2⟩ := List.append_inj hsplit2 hlen
      cases hdk : kd.drop old.length with
      | nil =>
        have : kd.length - old.length = 0 := by
          have := List.length_drop old.length kd
          rw [hdk] at this
          simpa using this.symm
        omega
      | cons c cs =>
        have hcw : isWordChar c = true := by
          apply ciEqB_all_word hkd kwDepends_word c
          have : c ∈ kd.drop old.length := by rw [hdk]; exact List.mem_cons_self _ _
          exact List.mem_of_mem_drop this
        have hrhead : r.head? = some c := by
          rw [← heq2, hdk]
          rfl
        have h2 := h.2
        rw [hrhead, wordB_w_w (valid_last_word hold)
          (show optWord (some c) = true from hcw)] at h2
        exact absurd h2 (by decide)
    · have hlen : old.length = kd.length := by omega
      obtain ⟨heq1, _⟩ := List.append_inj hsplit.symm hlen
      have : old.map Char.toLower = kwDepends :=
        ciEqB_map_toLower (heq1 ▸ hkd) kwDepends_lower
      exact hlow this
    · have hsplit2 : old.take 7 ++ (old.drop 7 ++ r) = kd ++ tail := by
        rw [← List.append_assoc, List.take_append_drop]
        exact hsplit.symm
      have hlen : (old.take 7).length = kd.length := by
        rw [List.length_take]
        omega
      obtain ⟨_, heq2⟩ := List.append_inj hsplit2 hlen
      cases hdo : old.drop 7 with
      | nil =>
        have := List.length_drop 7 old
        rw [hdo] at this
        have : old.length - 7 = 0 := by simpa using this.symm
        omega
      | cons c cs =>
        have hcw : isWordChar c = true := by
          apply isSymTail_word
          apply validSymbolB_mem hold c
          have : c ∈ old.drop 7 := by rw [hdo]; exact List.mem_cons_self _ _
          exact List.mem_of_mem_drop this
        have hth : tail.head? = some c := by
          rw [← heq2, hdo]
          rfl
        rw [hth] at htail
        have : isWordChar c = false := htail
        rw [hcw] at this
        exact absurd this (by decide)

theorem innerSubW_self {old new kd tail : List Char}
    (hold : validSymbolB old = true)
    (hlow : old.map Char.toLower ≠ kwDepends)
    (hkd : ciEqB kd kwDepends = true)
    (htail : optWord tail.head? = false)
    (hmid : ∀ a2 rest2, a2 ≠ [] → kd ++ tail = a2 ++ rest2 →
      checkWordExact old (ctxLast none a2) rest2 = false) :
    innerSubW old new (kd ++ tail) = kd ++ tail := by
  unfold innerSubW
  apply runSubF_self
  intro a rest z hs hz
  exfalso
  unfold tryInner at hz
  split at hz
  · simp at hz
  · split at hz
    · rename_i hcw
      cases ha : a with
      | nil =>
        rw [ha] at hs hcw
        simp only [List.nil_append] at hs
        rw [← hs] at hcw
        exact span_start_no_match hold hlow hkd htail (by simpa [ctxLast] using hcw)
      | cons x xs =>
        have := hmid a rest (by rw [ha]; simp) hs
        rw [hcw] at this
        exact absurd this (by decide)
    · simp at hz

theorem checkWordExact_extend {old rest2 t2 : List Char} {ctx : Option Char}
    (hold : validSymbolB old = true)
    (h : checkWordExact old ctx rest2 = true)
    (ht : optWord t2.head? = false) :
    checkWordCI old ctx (rest2 ++ t2) = true := by
  unfold checkWordExact at h
  cases hse : stripExact old rest2 with
  | none => rw [hse] at h; simp at h
  | some rr =>
    rw [hse] at h
    dsimp only at h
    simp only [Bool.and_eq_true] at h
    have hr2 : rest2 = old ++ rr := stripExact_some hse
    subst hr2
    rw [List.append_assoc]
    apply checkWordCI_build (ciEqB_refl old) h.1
    cases rr with
    | cons c cs => simpa using h.2
    | nil =>
      simp only [List.nil_append]
      exact wordB_w_nw (valid_last_word hold) ht

theorem try6_span_self {old : List Char} (new : List Char) {prev : Option Char}
    {rest kd w1 ko X t2 : List Char}
    (hold : validSymbolB old = true)
    (hlow : old.map Char.toLower ≠ kwDepends)
    (hno : hasOccCI old prev rest = false)
    (hrest : rest = (kd ++ (w1 ++ (ko ++ X))) ++ t2)
    (hkd : ciEqB kd kwDepends = true)
    (hw1ne : w1 ≠ []) (hw1sp : ∀ c ∈ w1, isPySpace c = true)
    (ht2 : optWord t2.head? = false) :
    innerSubW old new (kd ++ (w1 ++ (ko ++ X))) = kd ++ (w1 ++ (ko ++ X)) := by
  apply innerSubW_self hold hlow hkd
  · cases w1 with
    | nil => exact absurd rfl hw1ne
    | cons c cs =>
      show optWord (some c) = false
      exact isPySpace_not_word (hw1sp c (List.mem_cons_self _ _))
  · intro a2 rest2 hne hsp
    cases hcw : checkWordExact old (ctxLast none a2) rest2 with
    | false => rfl
    | true =>
      exfalso
      have hci : checkWordCI old (ctxLast none a2) (rest2 ++ t2) = true :=
        checkWordExact_extend hold hcw ht2
      have hci2 : checkWordCI old (ctxLast prev a2) (rest2 ++ t2) = true := by
        rw [ctxLast_irrel prev none hne]
        exact hci
      have hocc : hasOccCI old prev rest = true := by
        apply hasOccCI_at (validSymbolB_ne_nil hold) ?_ hci2
        rw [hrest, hsp, List.append_assoc]
      rw [hno] at hocc
      exact absurd hocc (by decide)

theorem take_of_append_eq {rest span t2 : List Char} {n : Nat}
    (hrest : rest = span ++ t2) (hn : n = span.length) :
    rest.take n = span := by
  subst hrest
  subst hn
  exact List.take_left span t2

theorem dropWhile_ne_head_nl {t : List Char} {c : Char} {cs : List Char}
    (h : t.dropWhile (fun c => c ≠ '\n') = c :: cs) : c = '\n' := by
  have := dropWhile_head_not h
  simpa using this

theorem try6_preserve {old new : List Char} {prev : Option Char}
    {rest : List Char} {z : List Char × Nat}
    (hold : validSymbolB old = true)
    (hlow : old.map Char.toLower ≠ kwDepends)
    (hno : hasOccCI old prev rest = false)
    (hz : try6 old new prev rest = some z) :
    z.1 = rest.take z.2 := by
  unfold try6 at hz
  cases hkd : stripCI kwDepends rest with
  | none => rw [hkd] at hz; simp at hz
  | some kdr =>
    obtain ⟨kd, r1⟩ := kdr
    rw [hkd] at hz
    dsimp only at hz
    split at hz
    · simp at hz
    · rename_i hw1
      cases hko : stripCI kwOn (r1.dropWhile isPySpace) with
      | none => rw [hko] at hz; simp at hz
      | some kor =>
        obtain ⟨ko, r2⟩ := kor
        rw [hko] at hz
        dsimp only at hz
        split at hz
        · simp at hz
        · rename_i hw
          have hw1ne : r1.takeWhile isPySpace ≠ [] := not_isEmpty_ne_nil hw1
          have hrest1 : rest = kd ++ (r1.takeWhile isPySpace ++
              (ko ++ (r2.takeWhile isPySpace ++ r2.dropWhile isPySpace))) := by
            rw [(stripCI_some hkd).1]
            conv_lhs => rw [← List.takeWhile_append_dropWhile (p := isPySpace) (l := r1)]
            rw [(stripCI_some hko).1]
            conv_lhs => rw [← List.takeWhile_append_dropWhile (p := isPySpace) (l := r2)]
          split at hz
          · rename_i hcond
            have hq : r2.dropWhile isPySpace =
                (r2.dropWhile isPySpace).takeWhile (fun c => c ≠ '\n') ++
                (r2.dropWhile isPySpace).dropWhile (fun c => c ≠ '\n') :=
              (List.takeWhile_append_dropWhile _ _).symm
            have ht2ne : (r2.dropWhile isPySpace).dropWhile (fun c => c ≠ '\n') ≠ [] := by
              intro hc
              have := congrArg List.length hq
              rw [hc] at this
              simp only [List.length_append, List.length_nil] at this
              omega
            have ht2h : optWord ((r2.dropWhile isPySpace).dropWhile
                (fun c => c ≠ '\n')).head? = false := by
              cases hdd : (r2.dropWhile isPySpace).dropWhile (fun c => c ≠ '\n') with
              | nil => exact absurd hdd ht2ne
              | cons c cs =>
                have := dropWhile_ne_head_nl hdd
                subst this
                show optWord (some '\n') = false
                decide
            have hrest2 : rest = (kd ++ (r1.takeWhile isPySpace ++ (ko ++
                (r2.takeWhile isPySpace ++
                  (r2.dropWhile isPySpace).takeWhile (fun c => c ≠ '\n'))))) ++
                (r2.dropWhile isPySpace).dropWhile (fun c => c ≠ '\n') := by
              rw [hrest1]
              conv_lhs => rw [hq]
              simp [List.append_assoc]
            have hself := try6_span_self new
              (X := r2.takeWhile isPySpace ++
                (r2.dropWhile isPySpace).takeWhile (fun c => c ≠ '\n'))
              hold hlow hno hrest2 (stripCI_some hkd).2 hw1ne takeWhile_all ht2h
            replace hz := hz.symm
            simp only [Option.some.injEq] at hz
            rw [hz]
            dsimp only
            simp only [List.append_assoc]
            rw [hself]
            exact (take_of_append_eq hrest2 (by simp only [List.length_append]; omega)).symm
          · cases hsl : splitLastNL (r2.takeWhile isPySpace) with
            | none => rw [hsl] at hz; simp at hz
            | some awbw =>
              obtain ⟨aw, bw⟩ := awbw
              rw [hsl] at hz
              dsimp only at hz
              split at hz
              · simp at hz
              · rename_i hawne
                obtain ⟨hwsplit, hbwh⟩ := splitLastNL_some hsl
                have hbwne : bw ≠ [] := by
                  intro hc
                  rw [hc] at hbwh
                  simp at hbwh
                have ht2h : optWord (bw ++ r2.dropWhile isPySpace).head? = false := by
                  cases bw with
                  | nil => exact absurd rfl hbwne
                  | cons c cs =>
                    have hc : c = '\n' := by simpa using hbwh
                    subst hc
                    show optWord (some '\n') = false
                    decide
                have hrest2 : rest = (kd ++ (r1.takeWhile isPySpace ++ (ko ++ aw))) ++
                    (bw ++ r2.dropWhile isPySpace) := by
                  rw [hrest1]
                  conv_lhs => rw [hwsplit]
                  simp [List.append_assoc]
                have hself := try6_span_self new (X := aw)
                  hold hlow hno hrest2 (stripCI_some hkd).2 hw1ne takeWhile_all ht2h
                replace hz := hz.symm
                simp only [Option.some.injEq] at hz
                rw [hz]
                dsimp only
                simp only [List.append_assoc]
                rw [hself]
                exact (take_of_append_eq hrest2 (by simp only [List.length_append]; omega)).symm

/-! ### Lemmas: every rule is the identity without a whole-word occurrence -/

theorem applySub_self_of_occ {t : Option Char → List Char → Option (List Char × Nat)}
    {old c : List Char} (_hne : old ≠ [])
    (hocc : ∀ prev s z, t prev s = some z → hasOccCI old prev s = true)
    (h : hasOccCI old none c = false) :
    applySub t c = c := by
  apply applySub_self
  intro a rest z hs hz
  exfalso
  have h2 : hasOccCI old none c = true := by
    subst hs
    exact hasOccCI_lift a (hocc _ _ _ hz)
  rw [h] at h2
  exact absurd h2 (by decide)

theorem sub1_self {old new c : List Char} (hold : validSymbolB old = true)
    (h : hasOccCI old none c = false) : sub1 old new c = c :=
  applySub_self_of_occ (validSymbolB_ne_nil hold)
    (fun _ _ _ hz => tryKwLine_occ hold hz) h

theorem sub2_self {old new c : List Char} (hold : validSymbolB old = true)
    (h : hasOccCI old none c = false) : sub2 old new c = c :=
  applySub_self_of_occ (validSymbolB_ne_nil hold)
    (fun _ _ _ hz => tryKwLine_occ hold hz) h

theorem sub3_self {old new c : List Char} (hold : validSymbolB old = true)
    (h : hasOccCI old none c = false) : sub3 old new c = c :=
  applySub_self_of_occ (validSymbolB_ne_nil hold)
    (fun _ _ _ hz => try3_occ hold hz) h

theorem sub4_self {old new c : List Char} (hold : validSymbolB old = true)
    (h : hasOccCI old none c = false) : sub4 old new c = c :=
  applySub_self_of_occ (validSymbolB_ne_nil hold)
    (fun _ _ _ hz => try4_occ hold hz) h

theorem sub5_self {old new c : List Char} (hold : validSymbolB old = true)
    (h : hasOccCI old none c = false) : sub5 old new c = c :=
  applySub_self_of_occ (validSymbolB_ne_nil hold)
    (fun _ _ _ hz => tryKwLine_occ hold hz) h

theorem sub6_self {old new c : List Char} (hold : validSymbolB old = true)
    (hlow : old.map Char.toLower ≠ kwDepends)
    (h : hasOccCI old none c = false) : sub6 old new c = c := by
  apply applySub_self
  intro a rest z hs hz
  apply try6_preserve hold hlow ?_ hz
  cases hoc : hasOccCI old (ctxLast none a) rest with
  | false => rfl
  | true =>
    exfalso
    have h2 : hasOccCI old none c = true := by
      subst hs
      exact hasOccCI_lift a hoc
    rw [h] at h2
    exact absurd h2 (by decide)

theorem sub7_self {old new c : List Char} (hold : validSymbolB old = true)
    (h : hasOccCI old none c = false) : sub7 old new c = c :=
  applySub_self_of_occ (validSymbolB_ne_nil hold)
    (fun _ _ _ hz => tryKwLine_occ hold hz) h

theorem sub8a_self {old new c : List Char} (hold : validSymbolB old = true)
    (h : hasOccCI old none c = false) : sub8a old new c = c :=
  applySub_self_of_occ (validSymbolB_ne_nil hold)
    (fun _ _ _ hz => tryKwLine_occ hold hz) h

theorem sub8b_self {old new c : List Char} (hold : validSymbolB old = true)
    (h : hasOccCI old none c = false) : sub8b old new c = c :=
  applySub_self_of_occ (validSymbolB_ne_nil hold)
    (fun _ _ _ hz => try8b_occ hold hz) h

theorem sub9_self {old new c : List Char} (hold : validSymbolB old = true)
    (h : hasOccCI old none c = false) : sub9 old new c = c :=
  applySub_self_of_occ (validSymbolB_ne_nil hold)
    (fun _ _ _ hz => tryKwLine_occ hold hz) h

theorem sub10_self {old new c : List Char} (hold : validSymbolB old = true)
    (h : hasOccCI old none c = false) : sub10 old new c = c :=
  applySub_self_of_occ (validSymbolB_ne_nil hold)
    (fun _ _ _ hz => try10_occ hold hz) h

theorem sub11a_self {old new c : List Char} (hold : validSymbolB old = true)
    (h : hasOccCI old none c = false) : sub11a old new c = c :=
  applySub_self_of_occ (validSymbolB_ne_nil hold)
    (fun _ _ _ hz => try11a_occ hold hz) h

theorem sub11b_self {old new c : List Char} (hold : validSymbolB old = true)
    (h : hasOccCI old none c = false) : sub11b old new c = c :=
  applySub_self_of_occ (validSymbolB_ne_nil hold)
    (fun _ _ _ hz => try11b_occ hold hz) h

theorem sub12_self {old new c : List Char} (hold : validSymbolB old = true)
    (h : hasOccCI old none c = false) : sub12 old new c = c :=
  applySub_self_of_occ (validSymbolB_ne_nil hold)
    (fun _ _ _ hz => try12_occ hold hz) h

theorem applyMapping_self {old new c : List Char}
    (hold : validSymbolB old = true)
    (hlow : old.map Char.toLower ≠ kwDepends)
    (h : hasOccCI old none c = false) : applyMapping old new c = c := by
  unfold applyMapping
  rw [sub1_self hold h, sub2_self hold h, sub3_self hold h, sub4_self hold h,
    sub5_self hold h, sub6_self hold hlow h, sub7_self hold h,
    sub8a_self hold h, sub8b_self hold h, sub9_self hold h, sub10_self hold h,
    sub11a_self hold h, sub11b_self hold h, sub12_self hold h]

theorem renameContent_self {ms : List (List Char × List Char)} {c : List Char}
    (h : ∀ p ∈ ms, validSymbolB p.1 = true ∧
      p.1.map Char.toLower ≠ kwDepends ∧ hasOccCI p.1 none c = false) :
    renameContent ms c = c := by
  induction ms with
  | nil => rfl
  | cons p t ih =>
    show renameContent (p :: t) c = c
    unfold renameContent
    show List.foldl _ (applyMapping p.1 p.2 c) t = c
    obtain ⟨h1, h2, h3⟩ := h p (List.mem_cons_self _ _)
    rw [applyMapping_self h1 h2 h3]
    exact ih (fun q hq => h q (List.mem_cons_of_mem _ hq))

/-! ### Claim C1 -/

/-- C1: the spec and the script's own docstring state that a `depends on`
expression continuing across several lines is captured as one span and every
whole-word occurrence of the old symbol inside it is rewritten — in
particular a clause spanning three continuation lines with the symbol only on
the last line is fully rewritten.  The code does not do this: the lookahead
of rule 6 accepts every newline (its `\S` alternative), so the captured span
ends at the first line break, and the `FOO` on the third continuation line
survives the rewrite while the definition line is renamed. -/
theorem C1_multiline_continuation_not_rewritten :
    renameContent [("FOO".toList, "ADI_FOO".toList)]
      ("config FOO\n\tdepends on A ||\n\t\tB ||\n\t\tFOO\n").toList =
      ("config ADI_FOO\n\tdepends on A ||\n\t\tB ||\n\t\tFOO\n").toList := by
  decide

/-! ### Claim C2 -/

/-- C2 counterexample: for a single Kconfig file whose content matches no
mapping, the dry run reports 1 file while the real run updates 0 files, so
the reported "would process" count does not equal the number of files a real
run updates. -/
theorem C2_counterexample :
    (process_kconfig_files_with_python true [("hello world\n").toList]
      [("FOO".toList, "BAR".toList)]).1 = 1 ∧
    (process_kconfig_files_with_python false [("hello world\n").toList]
      [("FOO".toList, "BAR".toList)]).1 = 0 := by
  decide

/-- C2 (amended): a dry run of the Kconfig processing performs no filesystem
mutation and reports the total number of files it was given (the number it
would process), and the count a real run reports (files actually updated)
never exceeds the dry-run count. -/
theorem C2_dry_run_no_mutation_and_upper_bound :
    ∀ (files : List (List Char)) (ms : List (List Char × List Char)),
      process_kconfig_files_with_python true files ms = (files.length, files) ∧
      (process_kconfig_files_with_python false files ms).1 ≤ files.length := by
  intro files ms
  constructor
  · cases files with
    | nil => rfl
    | cons f fs => simp [process_kconfig_files_with_python, List.isEmpty]
  · cases files with
    | nil => simp [process_kconfig_files_with_python]
    | cons f fs =>
      simp only [process_kconfig_files_with_python, List.isEmpty,
        if_neg, if_false, Bool.false_eq_true]
      calc ((((f :: fs).map (rename_in_kconfig_file false ms)).filter
              (fun r => r.ret)).length)
          ≤ ((f :: fs).map (rename_in_kconfig_file false ms)).length :=
            List.length_filter_le _ _
        _ = (f :: fs).length := List.length_map _ _

/-! ### Claim C5 -/

/-- C5 counterexample: word-boundary safety fails.  First conjunct: with the
mapping `DEPENDS → X`, the text `myDEPENDS on FOO` — in which `DEPENDS`
occurs only inside the longer identifier `myDEPENDS`, with no whole-word
occurrence even up to letter case — is altered to `myX on FOO` (rule 6
captures `DEPENDS on FOO` and its inner substitution treats the span start
as a word boundary).  Second conjunct: with the mapping `FOO → BAR`, a text
in which `FOO` occurs only inside the longer identifier `MYFOO` is still
altered, because the case-insensitive rules also rewrite the whole word
`foo`. -/
theorem C5_counterexample :
    (hasOccCI ("DEPENDS".toList) none ("myDEPENDS on FOO\n").toList = false ∧
      renameContent [("DEPENDS".toList, "X".toList)]
        ("myDEPENDS on FOO\n").toList = ("myX on FOO\n").toList) ∧
    (hasOccExact ("FOO".toList) none ("config MYFOO\ndepends on foo\n").toList = false ∧
      renameContent [("FOO".toList, "BAR".toList)]
        ("config MYFOO\ndepends on foo\n").toList =
        ("config MYFOO\ndepends on BAR\n").toList) := by
  constructor
  · constructor
    · decide
    · decide
  · constructor
    · decide
    · decide

/-- C5 (amended): for every mapping set whose old symbols are valid
configuration symbols (nonempty, over `[A-Z0-9_]`), none of which is the
pathological symbol `DEPENDS` (whose lower-casing equals the `depends`
keyword), a text containing no case-insensitive whole-word occurrence of any
old symbol — i.e. where each old symbol appears, up to letter case, only as
a proper substring of larger identifiers, if at all — is left completely
unchanged by the full rewriting pass. -/
theorem C5_word_boundary_amended :
    ∀ (ms : List (List Char × List Char)) (c : List Char),
      (∀ p ∈ ms, validSymbolB p.1 = true ∧
        p.1.map Char.toLower ≠ kwDepends ∧ hasOccCI p.1 none c = false) →
      renameContent ms c = c :=
  fun _ _ h => renameContent_self h

/-- C5 witness: concrete instantiation of the amended theorem. -/
theorem C5_word_boundary_amended_witness :
    renameContent [("FOO".toList, "BAR".toList)]
      ("help\n  myFOO sees FOO_MAX\n").toList =
      ("help\n  myFOO sees FOO_MAX\n").toList :=
  C5_word_boundary_amended [("FOO".toList, "BAR".toList)]
    ("help\n  myFOO sees FOO_MAX\n").toList (by decide)

/-! ### Claim C6 -/

/-- C6 counterexample: the rewriting pass is not idempotent, even for a
single mapping.  In `visible if FOO || FOO || FOO`, the first pass rewrites
the first occurrence (rule 10, `if SYMBOL`) and the last occurrence (rule
12, whose greedy prefix selects the rightmost match), leaving the middle
occurrence intact; a second pass then rewrites the middle occurrence, so
applying the pass twice differs from applying it once. -/
theorem C6_counterexample :
    renameContent [("FOO".toList, "BAR".toList)]
      (renameContent [("FOO".toList, "BAR".toList)]
        ("visible if FOO || FOO || FOO\n").toList) ≠
    renameContent [("FOO".toList, "BAR".toList)]
      ("visible if FOO || FOO || FOO\n").toList := by
  decide

/-- C6 (amended): the pass is idempotent whenever the once-rewritten text no
longer contains any old symbol as a case-insensitive whole word (the spec's
own justification of idempotence), for valid old symbols other than the
pathological `DEPENDS`; in general — when replaceable occurrences survive
the first pass, as in the counterexample — idempotence fails. -/
theorem C6_idempotent_amended :
    ∀ (ms : List (List Char × List Char)) (c : List Char),
      (∀ p ∈ ms, validSymbolB p.1 = true ∧
        p.1.map Char.toLower ≠ kwDepends ∧
        hasOccCI p.1 none (renameContent ms c) = false) →
      renameContent ms (renameContent ms c) = renameContent ms c :=
  fun _ _ h => renameContent_self h

/-- C6 witness: concrete instantiation of the amended theorem. -/
theorem C6_idempotent_amended_witness :
    renameContent [("FOO".toList, "BAR".toList)]
      (renameContent [("FOO".toList, "BAR".toList)] ("config FOO\n").toList) =
    renameContent [("FOO".toList, "BAR".toList)] ("config FOO\n").toList :=
  C6_idempotent_amended [("FOO".toList, "BAR".toList)] ("config FOO\n").toList
    (by decide)

/-! ### Claim C8 -/

/-- C8: when the rewritten content equals the original, the rewriter
performs no write and appends no change-log entry, returning `False` and
leaving the content untouched; and conversely a write (with its log entry)
happens only when the rewritten content actually differs. -/
theorem C8_noop_no_write :
    ∀ (ms : List (List Char × List Char)) (content : List Char),
      (renameContent ms content = content →
        rename_in_kconfig_file false ms content =
          ⟨false, content, false, false⟩) ∧
      ((rename_in_kconfig_file false ms content).wrote = true →
        renameContent ms content ≠ content ∧
        (rename_in_kconfig_file false ms content).logged = true) := by
  intro ms content
  unfold rename_in_kconfig_file
  by_cases h : renameContent ms content = content
  · simp [h]
  · simp [h]

/-- C8 witness: a file with no matching symbol is returned unchanged with no
write and no log entry. -/
theorem C8_noop_no_write_witness :
    rename_in_kconfig_file false [("FOO".toList, "BAR".toList)]
      ("hello world\n").toList =
      ⟨false, ("hello world\n").toList, false, false⟩ :=
  (C8_noop_no_write [("FOO".toList, "BAR".toList)] ("hello world\n").toList).1
    (by decide)

/-! ### Lemmas: mapping construction -/

theorem insertA_mem :
    ∀ {m : List (List Char × List Char)} {k v : List Char}
      {p : List Char × List Char},
      p ∈ insertA m k v → p ∈ m ∨ p = (k, v) := by
  intro m
  induction m with
  | nil =>
    intro k v p hp
    simp only [insertA] at hp
    exact Or.inr (by simpa using hp)
  | cons q t ih =>
    intro k v p hp
    obtain ⟨a, b⟩ := q
    simp only [insertA] at hp
    by_cases hk : a = k
    · rw [if_pos hk] at hp
      rcases List.mem_cons.mp hp with hp | hp
      · subst hk
        exact Or.inr hp
      · exact Or.inl (List.mem_cons_of_mem _ hp)
    · rw [if_neg hk] at hp
      rcases List.mem_cons.mp hp with hp | hp
      · exact Or.inl (by simp [hp])
      · rcases ih hp with hp | hp
        · exact Or.inl (List.mem_cons_of_mem _ hp)
        · exact Or.inr hp

theorem buildMappings_mem_aux (old new : List Char) :
    ∀ (subs : List (List Char)) (acc : List (List Char × List Char))
      (p : List Char × List Char),
      (∀ q ∈ acc, old.isPrefixOf q.1 = true ∧ q.2 = new ++ q.1.drop old.length) →
      p ∈ List.foldl
        (fun m sym =>
          if old.isPrefixOf sym then insertA m sym (new ++ sym.drop old.length)
          else m) acc subs →
      old.isPrefixOf p.1 = true ∧ p.2 = new ++ p.1.drop old.length := by
  intro subs
  induction subs with
  | nil => intro acc p hacc hp; exact hacc p hp
  | cons sym t ih =>
    intro acc p hacc hp
    apply ih _ p ?_ hp
    intro q hq
    dsimp only at hq
    by_cases hpre : old.isPrefixOf sym
    · rw [if_pos hpre] at hq
      rcases insertA_mem hq with hq | hq
      · exact hacc q hq
      · subst hq
        exact ⟨hpre, rfl⟩
    · rw [if_neg hpre] at hq
      exact hacc q hq

theorem buildMappings_mem {old new : List Char} {subs : List (List Char)}
    {p : List Char × List Char} (hp : p ∈ buildMappings old new subs) :
    old.isPrefixOf p.1 = true ∧ p.2 = new ++ p.1.drop old.length :=
  buildMappings_mem_aux old new subs [] p (by simp) hp

/-! ### Claim C4 -/

/-- C4: every derived mapping replaces only the matched root prefix and
preserves the remainder verbatim (`new = new_prefix ++ old.drop root.length`,
the source's `new_symbol + symbol[len(old_symbol):]`), and on the claim's
example file the discovered mapping set is exactly
`{FOO→BAR_FOO, FOOBAR→BAR_FOOBAR, FOOBAR_X→BAR_FOOBAR_X, FOOZ→BAR_FOOZ}`. -/
theorem C4_derived_mappings :
    (∀ (old new : List Char) (subs : List (List Char))
      (p : List Char × List Char), p ∈ buildMappings old new subs →
        old.isPrefixOf p.1 = true ∧ p.2 = new ++ p.1.drop old.length) ∧
    buildMappings ("FOO".toList) ("BAR_FOO".toList)
      (find_all_subsymbols ("FOO".toList)
        ("config FOO\nconfig FOOBAR\nconfig FOOBAR_X\nmenuconfig FOOZ\n").toList) =
      [("FOO".toList, "BAR_FOO".toList),
       ("FOOBAR".toList, "BAR_FOOBAR".toList),
       ("FOOBAR_X".toList, "BAR_FOOBAR_X".toList),
       ("FOOZ".toList, "BAR_FOOZ".toList)] :=
  ⟨fun _ _ _ _ hp => buildMappings_mem hp, by decide⟩

/-- C4 witness: concrete instantiation of the universal conjunct. -/
theorem C4_derived_mappings_witness :
    ("FOO".toList).isPrefixOf ("FOOBAR".toList) = true ∧
    "BAR_FOOBAR".toList =
      "BAR_FOO".toList ++ ("FOOBAR".toList).drop ("FOO".toList).length :=
  C4_derived_mappings.1 ("FOO".toList) ("BAR_FOO".toList) ["FOOBAR".toList]
    ("FOOBAR".toList, "BAR_FOOBAR".toList) (by decide)

/-! ### Lemmas: discovery pattern inversion -/

theorem tryDefn_some {kws : List (List Char)} {symbol : List Char}
    {prev : Option Char} {s cap : List Char} {n : Nat}
    (h : tryDefn kws symbol prev s = some (cap, n)) :
    atLS prev = true ∧
    ∃ kw w1 ext g2 r2,
      kw ∈ kws ∧
      s = s.takeWhile isPySpace ++ kw ++ w1 ++ symbol ++ ext ++ g2 ++ r2 ∧
      cap = symbol ++ ext ∧
      (∀ c ∈ w1, isPySpace c = true) ∧ w1 ≠ [] ∧
      (∀ c ∈ ext, isSymTail c = true) ∧
      (∀ c ∈ g2, isPySpace c = true) ∧
      (r2 = [] ∨ r2.head? = some '\n') ∧
      n = (s.takeWhile isPySpace).length + kw.length + w1.length +
        symbol.length + ext.length + g2.length := by
  unfold tryDefn at h
  split at h
  · rename_i hls
    cases hkw : stripAnyKw kws (s.dropWhile isPySpace) with
    | none => rw [hkw] at h; simp at h
    | some kr =>
      obtain ⟨kw, r1⟩ := kr
      rw [hkw] at h
      dsimp only at h
      split at h
      · simp at h
      · rename_i hw1
        cases hse : stripExact symbol (r1.dropWhile isPySpace) with
        | none => rw [hse] at h; simp at h
        | some r2 =>
          rw [hse] at h
          dsimp only at h
          cases hwd : wsDollar (r2.dropWhile isSymTail) with
          | none => rw [hwd] at h; simp at h
          | some g2r =>
            obtain ⟨g2, rr⟩ := g2r
            rw [hwd] at h
            simp only [Option.some.injEq, Prod.mk.injEq] at h
            obtain ⟨hcap, hn⟩ := h
            obtain ⟨hwd1, hwd2, hwd3⟩ := wsDollar_some hwd
            refine ⟨hls, kw, r1.takeWhile isPySpace, r2.takeWhile isSymTail,
              g2, rr, (stripAnyKw_some hkw).1, ?_, hcap.symm,
              takeWhile_all, not_isEmpty_ne_nil hw1, takeWhile_all, hwd2,
              hwd3, ?_⟩
            · conv_lhs => rw [← List.takeWhile_append_dropWhile (p := isPySpace) (l := s)]
              rw [(stripAnyKw_some hkw).2]
              conv_lhs => rw [← List.takeWhile_append_dropWhile (p := isPySpace) (l := r1)]
              rw [stripExact_some hse]
              conv_lhs => rw [← List.takeWhile_append_dropWhile (p := isSymTail) (l := r2)]
              rw [hwd1]
              simp [List.append_assoc]
            · omega
  · simp at h

theorem tryDefn_bound {kws : List (List Char)} {symbol : List Char}
    {prev : Option Char} {s cap : List Char} {n : Nat}
    (h : tryDefn kws symbol prev s = some (cap, n)) : n ≤ s.length := by
  obtain ⟨_, kw, w1, ext, g2, r2, _, hs, _, _, _, _, _, _, hn⟩ := tryDefn_some h
  have := congrArg List.length hs
  simp only [List.length_append] at this
  omega

theorem runFindF_mem {t : Option Char → List Char → Option (List Char × Nat)}
    (hb : ∀ prev s cap n, t prev s = some (cap, n) → n ≤ s.length) :
    ∀ (fuel : Nat) (prev : Option Char) (s x : List Char),
      x ∈ runFindF t fuel prev s →
      ∃ a rest n, s = a ++ rest ∧ t (ctxLast prev a) rest = some (x, n) := by
  intro fuel
  induction fuel with
  | zero => intro prev s x hx; simp [runFindF] at hx
  | succ fu ih =>
    intro prev s x hx
    cases s with
    | nil => simp [runFindF] at hx
    | cons c cs =>
      unfold runFindF at hx
      cases hm : t prev (c :: cs) with
      | none =>
        rw [hm] at hx
        dsimp only at hx
        obtain ⟨a, rest, n, h1, h2⟩ := ih (some c) cs x hx
        exact ⟨c :: a, rest, n, by simp [h1], h2⟩
      | some capn =>
        obtain ⟨cap, m⟩ := capn
        rw [hm] at hx
        cases m with
        | zero =>
          dsimp only at hx
          obtain ⟨a, rest, n, h1, h2⟩ := ih (some c) cs x hx
          exact ⟨c :: a, rest, n, by simp [h1], h2⟩
        | succ m =>
          dsimp only at hx
          rcases List.mem_cons.mp hx with hx | hx
          · subst hx
            exact ⟨[], c :: cs, m + 1, rfl, hm⟩
          · obtain ⟨a, rest, n, h1, h2⟩ := ih ((c :: cs).get? m) (cs.drop m) x hx
            have hmlt : m < (c :: cs).length := by
              have := hb prev (c :: cs) cap (m + 1) hm
              simp only [List.length_cons] at this ⊢
              omega
            have hctx : ctxLast prev ((c :: cs).take (m + 1)) = (c :: cs).get? m :=
              ctxLast_take (c :: cs) m prev hmlt
            refine ⟨(c :: cs).take (m + 1) ++ a, rest, n, ?_, ?_⟩
            · rw [List.append_assoc, ← h1]
              conv_lhs => rw [← List.take_append_drop (m + 1) (c :: cs)]
              rfl
            · rw [ctxLast_append, hctx]
              exact h2

theorem ctxLast_none_eq : ∀ (a : List Char), ctxLast none a = a.getLast? := by
  intro a
  induction a with
  | nil => rfl
  | cons c cs ih =>
    cases cs with
    | nil => rfl
    | cons d ds =>
      show ctxLast (some c) (d :: ds) = (c :: d :: ds).getLast?
      rw [ctxLast_irrel (some c) none (by simp), ih,
        List.getLast?_cons_cons]

theorem atLS_ctxLast_none {a : List Char} (h : atLS (ctxLast none a) = true) :
    a = [] ∨ a.getLast? = some '\n' := by
  cases ha : a with
  | nil => exact Or.inl rfl
  | cons c cs =>
    right
    rw [← ha, ← ctxLast_none_eq]
    cases hc : ctxLast none a with
    | none =>
      rw [ha] at hc
      rw [ctxLast_none_eq] at hc
      simp [List.getLast?_eq_none_iff] at hc
    | some x =>
      rw [hc] at h
      have : x = '\n' := by simpa [atLS] using h
      rw [this]

/-! ### Claim C3 -/

/-- C3 counterexample: the claim's exception clause is false — a
`choice <name> <extra>` line with trailing tokens after the name is NOT
recognized by subsymbol discovery (the discovery `choice` pattern requires
only trailing whitespace after the symbol; the trailing-token form exists
only in the rewriter, not in `find_all_subsymbols`). -/
theorem C3_counterexample :
    find_all_subsymbols ("FOO".toList) ("choice FOO EXTRA\n").toList = [] := by
  decide

/-- C3 (amended): subsymbol discovery is anchored, with no
`choice <name> <extra>` exception: a symbol is discovered only if the
content decomposes as line-start context (start of file or after a
newline), whitespace, one of the keywords `config`/`menuconfig`/`choice`,
nonempty whitespace, the root symbol followed by `[A-Z0-9_]*`, then only
whitespace up to a newline or the end of file.  (As in the source's `\s`,
the whitespace segments may themselves contain newlines.) -/
theorem C3_discovery_anchored :
    ∀ (symbol content s : List Char), s ∈ find_all_subsymbols symbol content →
      ∃ pre w0 kw w1 ext g2 post,
        kw ∈ [kwConfig, kwMenuconfig, kwChoice] ∧
        s = symbol ++ ext ∧ (∀ c ∈ ext, isSymTail c = true) ∧
        content = pre ++ w0 ++ kw ++ w1 ++ symbol ++ ext ++ g2 ++ post ∧
        (pre = [] ∨ pre.getLast? = some '\n') ∧
        (∀ c ∈ w0, isPySpace c = true) ∧
        (∀ c ∈ w1, isPySpace c = true) ∧ w1 ≠ [] ∧
        (∀ c ∈ g2, isPySpace c = true) ∧
        (post = [] ∨ post.head? = some '\n') := by
  intro symbol content s hs
  unfold find_all_subsymbols at hs
  rw [List.mem_dedup] at hs
  have hcase : ∃ kws1, (kws1 = [kwConfig, kwMenuconfig] ∨ kws1 = [kwChoice]) ∧
      s ∈ runFind (tryDefn kws1 symbol) content := by
    rcases List.mem_append.mp hs with hs | hs
    · exact ⟨[kwConfig, kwMenuconfig], Or.inl rfl, hs⟩
    · exact ⟨[kwChoice], Or.inr rfl, hs⟩
  obtain ⟨kws1, hkws1, hmem⟩ := hcase
  obtain ⟨a, rest, n, h1, h2⟩ :=
    runFindF_mem (fun _ _ _ _ hz => tryDefn_bound hz) _ none content s hmem
  obtain ⟨hls, kw, w1, ext, g2, r2, hkw, hrest, hcap, hw1, hw1ne, hext,
    hg2, hr2, _⟩ := tryDefn_some h2
  refine ⟨a, rest.takeWhile isPySpace, kw, w1, ext, g2, r2, ?_, hcap, hext,
    ?_, atLS_ctxLast_none hls, takeWhile_all, hw1, hw1ne, hg2, hr2⟩
  · rcases hkws1 with h | h <;> rw [h] at hkw
    · rcases List.mem_cons.mp hkw with h3 | h3
      · simp [h3]
      · simp at h3
        simp [h3]
    · simp at hkw
      simp [hkw]
  · rw [h1]
    conv_lhs => rw [hrest]
    simp [List.append_assoc]

/-! ### Lemmas: mapping-file line parsing -/

theorem dropWhile_append_all {p : Char → Bool} :
    ∀ {w r : List Char}, (∀ c ∈ w, p c = true) →
      (w ++ r).dropWhile p = r.dropWhile p := by
  intro w
  induction w with
  | nil => intro r _; rfl
  | cons c cs ih =>
    intro r h
    have hc : p c = true := h c (List.mem_cons_self _ _)
    show ((c :: (cs ++ r)).dropWhile p) = r.dropWhile p
    rw [List.dropWhile_cons_of_pos hc]
    exact ih (fun d hd => h d (List.mem_cons_of_mem _ hd))

theorem dropWhile_eq_self_of_head {p : Char → Bool} {l : List Char} {c : Char}
    (hh : l.head? = some c) (hc : p c = false) : l.dropWhile p = l := by
  cases l with
  | nil => simp at hh
  | cons d ds =>
    have : d = c := by simpa using hh
    subst this
    exact List.dropWhile_cons_of_neg (by simp [hc])

theorem dropWhile_all_nil {p : Char → Bool} :
    ∀ {l : List Char}, (∀ c ∈ l, p c = true) → l.dropWhile p = [] := by
  intro l
  induction l with
  | nil => intro _; rfl
  | cons c cs ih =>
    intro h
    rw [List.dropWhile_cons_of_pos (h c (List.mem_cons_self _ _))]
    exact ih (fun d hd => h d (List.mem_cons_of_mem _ hd))

theorem pyStrip_spaces {l : List Char} (h : ∀ c ∈ l, isPySpace c = true) :
    pyStrip l = [] := by
  unfold pyStrip
  rw [dropWhile_all_nil h]
  rfl

theorem pyStrip_mid {w1 mid w2 : List Char} {h0 hl : Char}
    (hw1 : ∀ c ∈ w1, isPySpace c = true) (hw2 : ∀ c ∈ w2, isPySpace c = true)
    (hh : mid.head? = some h0) (hh0 : isPySpace h0 = false)
    (hg : mid.getLast? = some hl) (hhl : isPySpace hl = false) :
    pyStrip (w1 ++ mid ++ w2) = mid := by
  unfold pyStrip
  have hmidne : mid ≠ [] := by
    intro hc
    rw [hc] at hh
    simp at hh
  have step1 : (w1 ++ mid ++ w2).dropWhile isPySpace = mid ++ w2 := by
    rw [List.append_assoc, dropWhile_append_all hw1]
    apply dropWhile_eq_self_of_head ?_ hh0
    cases mid with
    | nil => exact absurd rfl hmidne
    | cons c cs => simpa using hh
  rw [step1, List.reverse_append]
  rw [dropWhile_append_all (fun c hc => hw2 c (List.mem_reverse.mp hc))]
  rw [dropWhile_eq_self_of_head (by rw [List.head?_reverse]; exact hg) hhl]
  exact List.reverse_reverse mid

theorem pyStrip_id {l : List Char} (h : ∀ c ∈ l, isPySpace c = false) :
    pyStrip l = l := by
  cases l with
  | nil => rfl
  | cons c cs =>
    have hg : (c :: cs).getLast? = some ((c :: cs).getLast (by simp)) :=
      List.getLast?_eq_getLast _ _
    have hgl := List.getLast_mem (l := c :: cs) (by simp)
    have hnil : ∀ d ∈ ([] : List Char), isPySpace d = true := fun d hd => by simp at hd
    have hmid := pyStrip_mid hnil hnil
      (show (c :: cs).head? = some c from rfl)
      (h c (List.mem_cons_self _ _)) hg (h _ hgl)
    simpa using hmid

theorem isPrefixOf_append_self :
    ∀ (a b : List Char), a.isPrefixOf (a ++ b) = true := by
  intro a
  induction a with
  | nil => intro b; cases b <;> rfl
  | cons c cs ih => intro b; simp [List.isPrefixOf]

theorem splitArrow_at :
    ∀ {a : List Char} (b : List Char), (∀ c ∈ a, c ≠ ' ') →
      splitArrow (a ++ arrowSep ++ b) = some (a, b) := by
  intro a
  induction a with
  | nil =>
    intro b _
    show splitArrow (' ' :: ("-> ".toList ++ b)) = some ([], b)
    unfold splitArrow
    rw [if_pos]
    · rfl
    · show arrowSep.isPrefixOf (' ' :: ("-> ".toList ++ b)) = true
      exact isPrefixOf_append_self arrowSep b
  | cons c cs ih =>
    intro b h
    have hc : c ≠ ' ' := h c (List.mem_cons_self _ _)
    show splitArrow (c :: (cs ++ arrowSep ++ b)) = some (c :: cs, b)
    unfold splitArrow
    rw [if_neg]
    · rw [ih b (fun d hd => h d (List.mem_cons_of_mem _ hd))]
    · show ¬arrowSep.isPrefixOf (c :: (cs ++ arrowSep ++ b)) = true
      show ¬(' ' :: "-> ".toList).isPrefixOf (c :: (cs ++ arrowSep ++ b)) = true
      simp only [List.isPrefixOf, Bool.and_eq_true, beq_iff_eq]
      intro hcontra
      exact hc hcontra.1.symm

theorem symtail_ne_space {c : Char} (h : isSymTail c = true) : c ≠ ' ' := by
  intro hc
  have := isSymTail_not_space h
  rw [hc] at this
  exact absurd this (by decide)

theorem symtail_ne_hash {c : Char} (h : isSymTail c = true) : c ≠ '#' :=
  (isSymTail_ne h).2

theorem acceptedMappings_cons (line : List Char) (rest : List (List Char)) :
    acceptedMappings (line :: rest) =
      (match parseMappingLine line with
        | .mapping o n => [(o, n)]
        | _ => []) ++ acceptedMappings rest := by
  show (match parseMappingLine line with
    | LineResult.mapping o n => (o, n) :: acceptedMappings rest
    | _ => acceptedMappings rest) = _
  cases parseMappingLine line <;> rfl

theorem acceptedMappings_append :
    ∀ (l1 l2 : List (List Char)),
      acceptedMappings (l1 ++ l2) = acceptedMappings l1 ++ acceptedMappings l2 := by
  intro l1
  induction l1 with
  | nil => intro l2; rfl
  | cons line rest ih =>
    intro l2
    show acceptedMappings (line :: (rest ++ l2)) = _
    rw [acceptedMappings_cons, ih, acceptedMappings_cons]
    simp [List.append_assoc]

/-! ### Claim C9 -/

/-- C9: mapping-file parsing.  (a) A line `FOO -> BAR` with surrounding
whitespace yields the mapping (FOO, BAR), for valid symbols; (b) blank
lines are skipped; (c) lines whose stripped form starts with `#` are
skipped; (d) a non-blank non-comment line without the ` -> ` separator is
reported as malformed and skipped; (e) a line whose separator has a
whitespace-only side is reported as malformed and skipped; (f) any skipped
or malformed line is non-fatal: removing it from the file changes nothing
about the mappings obtained from the remaining lines. -/
theorem C9_mapping_file_parsing :
    (∀ (ws1 ws2 old new : List Char),
      (∀ c ∈ ws1, isPySpace c = true) → (∀ c ∈ ws2, isPySpace c = true) →
      validSymbolB old = true → validSymbolB new = true →
      parseMappingLine (ws1 ++ (old ++ arrowSep ++ new) ++ ws2) =
        .mapping old new) ∧
    (∀ ws : List Char, (∀ c ∈ ws, isPySpace c = true) →
      parseMappingLine ws = .skip) ∧
    (∀ line : List Char, (pyStrip line).head? = some '#' →
      parseMappingLine line = .skip) ∧
    (∀ line : List Char, pyStrip line ≠ [] →
      (pyStrip line).head? ≠ some '#' → splitArrow (pyStrip line) = none →
      parseMappingLine line = .malformed) ∧
    (∀ (line a b : List Char), pyStrip line ≠ [] →
      (pyStrip line).head? ≠ some '#' → splitArrow (pyStrip line) = some (a, b) →
      (pyStrip a = [] ∨ pyStrip b = []) →
      parseMappingLine line = .malformed) ∧
    (∀ (l1 l2 : List (List Char)) (bad : List Char),
      (parseMappingLine bad = .skip ∨ parseMappingLine bad = .malformed) →
      acceptedMappings (l1 ++ bad :: l2) = acceptedMappings (l1 ++ l2)) := by
  refine ⟨?_, ?_, ?_, ?_, ?_, ?_⟩
  · intro ws1 ws2 old new hws1 hws2 hold hnew
    have holdne := validSymbolB_ne_nil hold
    have hnewne := validSymbolB_ne_nil hnew
    have hh : (old ++ arrowSep ++ new).head? = some (old.headD ' ') := by
      cases old with
      | nil => exact absurd rfl holdne
      | cons c cs => rfl
    have hmemh : old.headD ' ' ∈ old := by
      cases old with
      | nil => exact absurd rfl holdne
      | cons c cs => exact List.mem_cons_self _ _
    have hg : (old ++ arrowSep ++ new).getLast? = new.getLast? :=
      List.getLast?_append_of_ne_nil _ hnewne
    have hgl : new.getLast? = some (new.getLast hnewne) :=
      List.getLast?_eq_getLast _ _
    have hglmem : new.getLast hnewne ∈ new := List.getLast_mem hnewne
    have hstrip : pyStrip (ws1 ++ (old ++ arrowSep ++ new) ++ ws2) =
        old ++ arrowSep ++ new := by
      apply pyStrip_mid hws1 hws2 hh
        (isSymTail_not_space (validSymbolB_mem hold _ hmemh))
        (hg.trans hgl)
        (isSymTail_not_space (validSymbolB_mem hnew _ hglmem))
    unfold parseMappingLine
    rw [hstrip]
    rw [if_neg, if_neg]
    · rw [splitArrow_at new (fun c hc => symtail_ne_space (validSymbolB_mem hold c hc))]
      dsimp only
      rw [pyStrip_id (fun c hc => isSymTail_not_space (validSymbolB_mem hold c hc)),
        pyStrip_id (fun c hc => isSymTail_not_space (validSymbolB_mem hnew c hc))]
      rw [if_neg]
      simp only [Bool.or_eq_true, not_or]
      constructor
      · cases old with
        | nil => exact absurd rfl holdne
        | cons c cs => simp [List.isEmpty]
      · cases new with
        | nil => exact absurd rfl hnewne
        | cons c cs => simp [List.isEmpty]
    · cases old with
      | nil => exact absurd rfl holdne
      | cons c cs =>
        simp only [List.cons_append, List.head?_cons, Option.some.injEq]
        exact fun hc =>
          symtail_ne_hash (validSymbolB_mem hold c (List.mem_cons_self _ _)) hc
    · cases old with
      | nil => exact absurd rfl holdne
      | cons c cs => simp [List.isEmpty]
  · intro ws hws
    unfold parseMappingLine
    rw [pyStrip_spaces hws]
    rfl
  · intro line hline
    unfold parseMappingLine
    rw [if_neg, if_pos hline]
    intro hc
    rw [List.isEmpty_iff] at hc
    rw [hc] at hline
    simp at hline
  · intro line h1 h2 h3
    unfold parseMappingLine
    rw [if_neg (by rw [List.isEmpty_iff]; exact fun hc => h1 hc),
      if_neg h2, h3]
  · intro line a b h1 h2 h3 h4
    unfold parseMappingLine
    rw [if_neg (by rw [List.isEmpty_iff]; exact fun hc => h1 hc),
      if_neg h2, h3]
    dsimp only
    rw [if_pos]
    rcases h4 with h4 | h4 <;> rw [h4] <;> simp [List.isEmpty]
  · intro l1 l2 bad hbad
    rw [acceptedMappings_append, acceptedMappings_append]
    have : (match parseMappingLine bad with
        | LineResult.mapping o n => [(o, n)]
        | _ => ([] : List (List Char × List Char))) = [] := by
      rcases hbad with h | h <;> rw [h]
    rw [show acceptedMappings (bad :: l2) =
        (match parseMappingLine bad with
          | LineResult.mapping o n => [(o, n)]
          | _ => []) ++ acceptedMappings l2 from acceptedMappings_cons bad l2,
      this]
    rfl

/-- C9 witness: concrete instantiation of the well-formed-line conjunct. -/
theorem C9_mapping_file_parsing_witness :
    parseMappingLine (" ".toList ++ ("FOO".toList ++ arrowSep ++ "BAR".toList) ++
        " ".toList) = .mapping ("FOO".toList) ("BAR".toList) :=
  C9_mapping_file_parsing.1 (" ".toList) (" ".toList) ("FOO".toList)
    ("BAR".toList) (by decide) (by decide) (by decide) (by decide)

/-- C3 witness: concrete instantiation of the amended theorem at a
discovered symbol. -/
theorem C3_discovery_anchored_witness :
    ∃ pre w0 kw w1 ext g2 post,
      kw ∈ [kwConfig, kwMenuconfig, kwChoice] ∧
      "FOOBAR".toList = "FOO".toList ++ ext ∧
      (∀ c ∈ ext, isSymTail c = true) ∧
      ("x\nconfig FOOBAR\n").toList =
        pre ++ w0 ++ kw ++ w1 ++ "FOO".toList ++ ext ++ g2 ++ post ∧
      (pre = [] ∨ pre.getLast? = some '\n') ∧
      (∀ c ∈ w0, isPySpace c = true) ∧
      (∀ c ∈ w1, isPySpace c = true) ∧ w1 ≠ [] ∧
      (∀ c ∈ g2, isPySpace c = true) ∧
      (post = [] ∨ post.head? = some '\n') :=
  C3_discovery_anchored ("FOO".toList) ("x\nconfig FOOBAR\n").toList
    ("FOOBAR".toList) (by decide)

/-! ### Lemmas: enumerating case-insensitive variants -/

theorem lowEq_upper_cases {c : Char} (u l : Char)
    (hu : 65 ≤ u.toNat ∧ u.toNat ≤ 90) (hl : l.toNat = u.toNat + 32)
    (h : lowEq c u = true) : c = u ∨ c = l := by
  have h2 : c.toLower = u.toLower := by simpa [lowEq] using h
  have hu32 := toLower_toNat u hu
  by_cases hc : 65 ≤ c.toNat ∧ c.toNat ≤ 90
  · left
    have hc32 := toLower_toNat c hc
    rw [char_eq_iff_toNat]
    have := congrArg Char.toNat h2
    omega
  · right
    rw [toLower_eq_self c hc] at h2
    rw [char_eq_iff_toNat]
    have := congrArg Char.toNat h2
    omega

theorem ciEqB_cons_inv {v : List Char} {b : Char} {bs : List Char}
    (h : ciEqB v (b :: bs) = true) :
    ∃ a as, v = a :: as ∧ lowEq a b = true ∧ ciEqB as bs = true := by
  cases v with
  | nil => simp [ciEqB] at h
  | cons a as =>
    simp only [ciEqB, Bool.and_eq_true] at h
    exact ⟨a, as, rfl, h.1, h.2⟩

theorem ciEqB_nil_inv {v : List Char} (h : ciEqB v [] = true) : v = [] := by
  cases v with
  | nil => rfl
  | cons a as => simp [ciEqB] at h

theorem ciEq_foo_cases (v : List Char) (h : ciEqB v ("FOO".toList) = true) :
    ∃ a b c, v = [a, b, c] ∧ (a = 'F' ∨ a = 'f') ∧
      (b = 'O' ∨ b = 'o') ∧ (c = 'O' ∨ c = 'o') := by
  replace h : ciEqB v ('F' :: 'O' :: 'O' :: []) = true := h
  obtain ⟨a, v1, rfl, ha, h⟩ := ciEqB_cons_inv h
  obtain ⟨b, v2, rfl, hb, h⟩ := ciEqB_cons_inv h
  obtain ⟨c, v3, rfl, hc, h⟩ := ciEqB_cons_inv h
  rw [ciEqB_nil_inv h]
  exact ⟨a, b, c, rfl,
    lowEq_upper_cases 'F' 'f' (by decide) (by decide) ha,
    lowEq_upper_cases 'O' 'o' (by decide) (by decide) hb,
    lowEq_upper_cases 'O' 'o' (by decide) (by decide) hc⟩

/-- C10: refuted as stated. In `depends on foo || foo` with mapping
`FOO -> BAR`, the first `foo` differs from the old symbol only in letter
case yet is not replaced: the single-line `depends on` rule rewrites only
the rightmost eligible occurrence of its clause, because the greedy
`[^#\n]*` before the symbol consumes as much of the clause as possible. -/
theorem C10_counterexample :
    renameContent [("FOO".toList, "BAR".toList)]
      ("depends on foo || foo\n".toList)
      = "depends on foo || BAR\n".toList := by decide

/-- C10 (amended): the single-line `depends on`, bare `if` and
`visible if` rules do match the old symbol case-insensitively and insert
the new symbol in the new symbol's given case, but per clause only one
occurrence is rewritten: for every case variant `v` of `FOO`
(1) a sole occurrence in a `depends on` clause becomes `BAR`;
(2) the occurrence directly after a bare `if` becomes `BAR`;
(3) in a two-occurrence `depends on` clause only the rightmost is
replaced, the left case variant surviving (for proper variants `v1`,
which rule 6's case-sensitive inner pass cannot touch);
(4) in a three-occurrence `visible if` clause the occurrence after `if`
(bare-`if` rule) and the rightmost occurrence (`visible if` rule) are
replaced while the middle case variant survives. -/
theorem C10_case_insensitive_amended :
    (∀ v, ciEqB v ("FOO".toList) = true →
      renameContent [("FOO".toList, "BAR".toList)]
          ("depends on ".toList ++ v ++ "\n".toList)
        = "depends on BAR\n".toList) ∧
    (∀ v, ciEqB v ("FOO".toList) = true →
      renameContent [("FOO".toList, "BAR".toList)]
          ("\tif ".toList ++ v ++ "\n".toList)
        = "\tif BAR\n".toList) ∧
    (∀ v1 v2, ciEqB v1 ("FOO".toList) = true → v1 ≠ "FOO".toList →
      ciEqB v2 ("FOO".toList) = true →
      renameContent [("FOO".toList, "BAR".toList)]
          ("depends on ".toList ++ v1 ++ " || ".toList ++ v2 ++ "\n".toList)
        = "depends on ".toList ++ v1 ++ " || BAR\n".toList) ∧
    (∀ v1 v3, ciEqB v1 ("FOO".toList) = true → ciEqB v3 ("FOO".toList) = true →
      renameContent [("FOO".toList, "BAR".toList)]
          ("visible if ".toList ++ v1 ++ " || fOo || ".toList ++ v3 ++
            "\n".toList)
        = "visible if BAR || fOo || ".toList ++ "BAR\n".toList) := by
  refine ⟨?_, ?_, ?_, ?_⟩
  · intro v hv
    obtain ⟨a, b, c, rfl, ha, hb, hc⟩ := ciEq_foo_cases v hv
    rcases ha with rfl | rfl <;> rcases hb with rfl | rfl <;>
      rcases hc with rfl | rfl <;> decide
  · intro v hv
    obtain ⟨a, b, c, rfl, ha, hb, hc⟩ := ciEq_foo_cases v hv
    rcases ha with rfl | rfl <;> rcases hb with rfl | rfl <;>
      rcases hc with rfl | rfl <;> decide
  · intro v1 v2 hv1 hne hv2
    obtain ⟨a, b, c, rfl, ha, hb, hc⟩ := ciEq_foo_cases v1 hv1
    obtain ⟨d, e, f, rfl, hd, he, hf⟩ := ciEq_foo_cases v2 hv2
    rcases ha with rfl | rfl <;> rcases hb with rfl | rfl <;>
      rcases hc with rfl | rfl <;> rcases hd with rfl | rfl <;>
      rcases he with rfl | rfl <;> rcases hf with rfl | rfl <;>
      first
        | (exact absurd (by decide) hne)
        | decide
  · intro v1 v3 hv1 hv3
    obtain ⟨a, b, c, rfl, ha, hb, hc⟩ := ciEq_foo_cases v1 hv1
    obtain ⟨d, e, f, rfl, hd, he, hf⟩ := ciEq_foo_cases v3 hv3
    rcases ha with rfl | rfl <;> rcases hb with rfl | rfl <;>
      rcases hc with rfl | rfl <;> rcases hd with rfl | rfl <;>
      rcases he with rfl | rfl <;> rcases hf with rfl | rfl <;> decide

/-- C10 witness: the amended theorem instantiated at concrete case
variants of `FOO`. -/
theorem C10_case_insensitive_amended_witness :
    renameContent [("FOO".toList, "BAR".toList)]
        ("depends on ".toList ++ "fOo".toList ++ "\n".toList)
      = "depends on BAR\n".toList ∧
    renameContent [("FOO".toList, "BAR".toList)]
        ("\tif ".toList ++ "Foo".toList ++ "\n".toList)
      = "\tif BAR\n".toList ∧
    renameContent [("FOO".toList, "BAR".toList)]
        ("depends on ".toList ++ "foo".toList ++ " || ".toList ++
          "FOO".toList ++ "\n".toList)
      = "depends on ".toList ++ "foo".toList ++ " || BAR\n".toList ∧
    renameContent [("FOO".toList, "BAR".toList)]
        ("visible if ".toList ++ "foO".toList ++ " || fOo || ".toList ++
          "FOO".toList ++ "\n".toList)
      = "visible if BAR || fOo || ".toList ++ "BAR\n".toList :=
  ⟨C10_case_insensitive_amended.1 ("fOo".toList) (by decide),
   C10_case_insensitive_amended.2.1 ("Foo".toList) (by decide),
   C10_case_insensitive_amended.2.2.1 ("foo".toList) ("FOO".toList)
     (by decide) (by decide) (by decide),
   C10_case_insensitive_amended.2.2.2 ("foO".toList) ("FOO".toList)
     (by decide) (by decide)⟩

/-- C7: refuted. On `config FOO\ndepends on foo\n` — one discovered
subsymbol `FOO`, derived name `ADI_FOO`, no collision with any unrelated
symbol — renaming `FOO -> ADI_FOO` and then `ADI_FOO -> FOO` yields
`config FOO\ndepends on FOO\n`, not the original: the case-insensitive
`depends on` rule rewrote the case variant `foo` forward, and the
backward pass restores it in the new symbol's exact case. -/
theorem C7_counterexample :
    rename_symbol ("ADI_FOO".toList) ("FOO".toList)
        (rename_symbol ("FOO".toList) ("ADI_FOO".toList)
          ("config FOO\ndepends on foo\n".toList))
      = "config FOO\ndepends on FOO\n".toList ∧
    "config FOO\ndepends on FOO\n".toList ≠
      "config FOO\ndepends on foo\n".toList := by decide

set_option maxRecDepth 8192 in
/-- C7 (amended): the round trip `S -> P+S -> S` restores the file when
every occurrence of the symbol is in exact case: for every file assembled
from the construct lines `config FOO`, `\tdepends on FOO`, `\tselect FOO`,
`if FOO`, `endif # FOO` and `visible if FOO` (each present or absent),
renaming `FOO -> ADI_FOO` and then `ADI_FOO -> FOO` is the identity; in
general the round trip fails because the case-insensitive rules
canonicalize case-variant occurrences to the replacement's case. -/
theorem C7_round_trip_amended :
    ∀ b1 b2 b3 b4 b5 b6 : Bool,
      rename_symbol ("ADI_FOO".toList) ("FOO".toList)
        (rename_symbol ("FOO".toList) ("ADI_FOO".toList)
          ((if b1 then "config FOO\n".toList else []) ++
           (if b2 then "\tdepends on FOO\n".toList else []) ++
           (if b3 then "\tselect FOO\n".toList else []) ++
           (if b4 then "if FOO\n".toList else []) ++
           (if b5 then "endif # FOO\n".toList else []) ++
           (if b6 then "visible if FOO\n".toList else [])))
      = (if b1 then "config FOO\n".toList else []) ++
        (if b2 then "\tdepends on FOO\n".toList else []) ++
        (if b3 then "\tselect FOO\n".toList else []) ++
        (if b4 then "if FOO\n".toList else []) ++
        (if b5 then "endif # FOO\n".toList else []) ++
        (if b6 then "visible if FOO\n".toList else []) := by decide

end Kc
